import Mathlib

/-!
Verification development for the content-addressable, reference-counted
chunk store of the cloud-drive repository.

The embedding follows the source files:
  * `be/utils/compress.py`   — gzip-based storage codec (`is_gzip`,
    `compress_for_storage`, `decompress_from_storage`);
  * `be/services/dedup/chunk_store.py` — the `DatabaseChunkStore` engine
    (chunking, store/read/delete of chunks and files, orphan cleanup);
  * `be/models/chunk.py`     — the `Chunk` and `FileChunkMapping` tables.

Byte strings are modelled as `List Nat` (one `Nat` per byte).  The two
external collaborators that are not repository code are modelled at their
boundary, exactly as the engine uses them:
  * `hashlib.sha256(...).hexdigest()` is an opaque function
    `sha : Bytes → Bytes` (a digest is itself a byte string, the hex
    characters of the real digest); collision-freeness is the standard
    `Function.Injective` hypothesis where a theorem needs it;
  * the `gzip` module is a `GzipModel`: a total `compr` (the source wraps
    `gzip.compress` in a fail-safe `try`, and `gzip.compress` does not fail
    on bytes) and a fallible `decompr` (`gzip.decompress` raises on data
    that is not a valid gzip stream), with the two facts of the gzip format
    the codec relies on: output of `compr` starts with the magic bytes
    `1f 8b`, and `decompr` inverts `compr`.
The SQLAlchemy tables are association lists / row lists, and the chunk
directory tree is a list of (subdirectory, filename, content) file entries;
operations are explicit state passing over a `StoreState`.
-/

abbrev Bytes := List Nat

/-! ## `be/utils/compress.py` -/

/-- `_GZIP_MAGIC = b"\x1f\x8b"`. -/
def GZIP_MAGIC : Bytes := [31, 139]

/-- `is_gzip(data)`: at least two bytes and the first two are the gzip
magic.  (The `isinstance` guard is always true in our typed model.) -/
def is_gzip (data : Bytes) : Bool :=
  decide (2 ≤ data.length) && decide (data.take 2 = GZIP_MAGIC)

/-- Boundary model of the Python `gzip` module (external library, not
repository code): a compressor, a decompressor that can fail, and the two
facts about the gzip format that `compress.py` relies on. -/
structure GzipModel where
  compr : Bytes → Bytes
  decompr : Bytes → Option Bytes
  compr_magic : ∀ x, is_gzip (compr x) = true
  decompr_compr : ∀ x, decompr (compr x) = some x

/-- `compress_for_storage(data, enabled)`: gzip unless disabled, empty, or
already gzip-prefixed; fail-safe (the model's `compr` is total, see
`GzipModel`). -/
def compress_for_storage (g : GzipModel) (data : Bytes) (enabled : Bool) : Bytes :=
  if ¬enabled ∨ data = [] ∨ is_gzip data then data
  else g.compr data

/-- `decompress_from_storage(blob, enabled)`: decompress when enabled,
nonempty and gzip-prefixed; on a decompression error return the blob
unchanged (the `except` branch). -/
def decompress_from_storage (g : GzipModel) (blob : Bytes) (enabled : Bool) : Bytes :=
  if ¬enabled ∨ blob = [] ∨ ¬is_gzip blob then blob
  else
    match g.decompr blob with
    | some out => out
    | none => blob

/-! ## Chunking (`split_file_to_chunks`, `split_file_stream_to_chunks`) -/

/-- One entry of the chunk list produced by the splitters:
`{'data', 'hash', 'index', 'offset', 'size'}`. -/
structure ChunkInfo where
  data : Bytes
  hash : Bytes
  index : Nat
  offset : Nat
  size : Nat
deriving DecidableEq, Repr

/-- Loop body of `split_file_to_chunks`.  The Python `while` advances
`offset` by `min(chunk_size, len(file_data) - offset)` each iteration and
slices `file_data[offset : offset + current_chunk_size]`; here `data` is
the not-yet-consumed suffix, so the slice is `data.take sz` and the
remaining input is `data.drop sz`.  The `fuel` argument bounds the number
of iterations: with a positive chunk size each iteration consumes at least
one byte, so `fuel = data.length` (supplied by `split_file_to_chunks`) is
exact. -/
def splitLoop (sha : Bytes → Bytes) (cs : Nat) :
    Nat → Bytes → Nat → Nat → List ChunkInfo
  | 0, _, _, _ => []
  | fuel + 1, data, offset, idx =>
    if data = [] then []
    else
      let sz := min cs data.length
      let cd := data.take sz
      ⟨cd, sha cd, idx, offset, sz⟩ ::
        splitLoop sha cs fuel (data.drop sz) (offset + sz) (idx + 1)

/-- `split_file_to_chunks(file_data)`. -/
def split_file_to_chunks (sha : Bytes → Bytes) (cs : Nat) (file_data : Bytes) :
    List ChunkInfo :=
  splitLoop sha cs file_data.length file_data 0 0

/-- Loop body of `split_file_stream_to_chunks`.  A read of `chunk_size`
bytes from the stream returns `min(chunk_size, remaining)` bytes, i.e.
`remaining.take cs`; the loop breaks on an empty read. -/
def splitStreamLoop (sha : Bytes → Bytes) (cs : Nat) :
    Nat → Bytes → Nat → Nat → List ChunkInfo
  | 0, _, _, _ => []
  | fuel + 1, remaining, offset, idx =>
    let cd := remaining.take cs
    if cd = [] then []
    else
      ⟨cd, sha cd, idx, offset, cd.length⟩ ::
        splitStreamLoop sha cs fuel (remaining.drop cs) (offset + cd.length) (idx + 1)

/-- `split_file_stream_to_chunks(file_stream)`, with the stream modelled by
the byte sequence it yields. -/
def split_file_stream_to_chunks (sha : Bytes → Bytes) (cs : Nat) (file_data : Bytes) :
    List ChunkInfo :=
  splitStreamLoop sha cs file_data.length file_data 0 0

/-- Stable insertion by a `Nat` key: an element is placed after all
existing elements whose key is not greater, matching Python's stable
`sorted`. -/
def insertByKey {α : Type} (key : α → Nat) (a : α) : List α → List α
  | [] => [a]
  | b :: rest => if key a < key b then a :: b :: rest else b :: insertByKey key a rest

/-- Stable sort by a `Nat` key (insertion sort); models both
`sorted(chunks, key=lambda x: x['index'])` in `_calculate_file_hash` and
the SQL `ORDER BY chunk_index` of `get_file_chunks`. -/
def sortByKey {α : Type} (key : α → Nat) : List α → List α
  | [] => []
  | a :: rest => insertByKey key a (sortByKey key rest)

/-- `_calculate_file_hash(chunks)`: digest of the concatenation of the
chunk hashes, sorted by chunk index. -/
def calc_file_hash (sha : Bytes → Bytes) (chunks : List ChunkInfo) : Bytes :=
  sha (((sortByKey (fun c => c.index) chunks).map (fun c => c.hash)).flatten)

/-! ## Data model (`be/models/chunk.py`) and physical layout -/

/-- One row of the `chunks` table (minus the surrogate `id`); the key
`chunk_hash` is carried by the association list.  `ref_count` is an `Int`
(Python integers are unbounded; `decrement_ref` clamps with `max(0, ...)`).
`storage_path` is the (shard subdirectory, filename) pair produced by
`_get_chunk_storage_path`. -/
structure ChunkRow where
  chunk_size : Nat
  ref_count : Int
  storage_path : Bytes × Bytes
  compressed_size : Nat
deriving DecidableEq, Repr

/-- One row of the `file_chunk_mappings` table. -/
structure MappingRow where
  file_hash : Bytes
  chunk_hash : Bytes
  chunk_index : Nat
  chunk_offset : Nat
  chunk_size : Nat
deriving DecidableEq, Repr

/-- One file in the physical chunk directory tree: a shard subdirectory of
`.chunks`, a filename, and the stored (possibly compressed) content. -/
structure FsEntry where
  subdir : Bytes
  filename : Bytes
  content : Bytes
deriving DecidableEq, Repr

def FsEntry.path (e : FsEntry) : Bytes × Bytes := (e.subdir, e.filename)

abbrev ChunkTable := List (Bytes × ChunkRow)

/-- The durable state the engine manipulates: the two metadata tables and
the chunk directory tree. -/
structure StoreState where
  chunks : ChunkTable
  mappings : List MappingRow
  fs : List FsEntry
deriving DecidableEq, Repr

def emptyState : StoreState := ⟨[], [], []⟩

/-- `query.filter_by(chunk_hash=h).first()`: first row with the key. -/
def lookupChunk : ChunkTable → Bytes → Option ChunkRow
  | [], _ => none
  | e :: rest, h => if e.1 = h then some e.2 else lookupChunk rest h

/-- SQLAlchemy mutation of the fetched row object: replace the first row
with the key (a no-op when the key is absent). -/
def updateChunk : ChunkTable → Bytes → ChunkRow → ChunkTable
  | [], _, _ => []
  | e :: rest, h, r => if e.1 = h then (h, r) :: rest else e :: updateChunk rest h r

/-- `db.session.delete(chunk)`: remove the first row with the key. -/
def eraseChunk : ChunkTable → Bytes → ChunkTable
  | [], _ => []
  | e :: rest, h => if e.1 = h then rest else e :: eraseChunk rest h

/-- `db.session.add(chunk)`: append a row. -/
def insertChunk (tbl : ChunkTable) (h : Bytes) (r : ChunkRow) : ChunkTable :=
  tbl ++ [(h, r)]

/-- Current reference count of a hash, `0` when no row exists
(= `Chunk.get_ref_count`). -/
def refCnt (tbl : ChunkTable) (h : Bytes) : Int :=
  match lookupChunk tbl h with
  | none => 0
  | some row => row.ref_count

/-- `Chunk.exists(chunk_hash)`. -/
def Chunk_exists (tbl : ChunkTable) (h : Bytes) : Bool :=
  (lookupChunk tbl h).isSome

/-- `Chunk.increment_ref`: `get_or_create` (which creates the row with
`ref_count=0` when absent — sequentially the racing `except` branch never
runs) followed by `ref_count += 1` and commit.  The field arguments are
Python's keyword arguments; the call sites that omit them (passing `None`)
are exactly those where the row already exists, so the creation branch
never reads placeholder values in any modelled execution. -/
def Chunk_increment_ref (tbl : ChunkTable) (h : Bytes) (chunk_size : Nat)
    (storage_path : Bytes × Bytes) (compressed_size : Nat) : ChunkTable × Int :=
  match lookupChunk tbl h with
  | some row =>
    (updateChunk tbl h { row with ref_count := row.ref_count + 1 }, row.ref_count + 1)
  | none =>
    (insertChunk tbl h ⟨chunk_size, 1, storage_path, compressed_size⟩, 1)

/-- `Chunk.decrement_ref`: `none` models the bare `0` returned for a
missing row (not a tuple, so `delete_chunk`'s `isinstance` check fails);
otherwise `max(0, ref_count - 1)` with row deletion and the storage path
surfaced when the count reaches zero. -/
def Chunk_decrement_ref (tbl : ChunkTable) (h : Bytes) :
    ChunkTable × Option (Int × Option (Bytes × Bytes)) :=
  match lookupChunk tbl h with
  | none => (tbl, none)
  | some row =>
    let rc := max 0 (row.ref_count - 1)
    if rc = 0 then (eraseChunk tbl h, some (0, some row.storage_path))
    else (updateChunk tbl h { row with ref_count := rc }, some (rc, none))

/-- `FileChunkMapping.create_mapping`: delete every row of the file hash,
then append the new batch (committed together). -/
def create_mapping (tbl : List MappingRow) (fh : Bytes) (batch : List MappingRow) :
    List MappingRow :=
  tbl.filter (fun m => !decide (m.file_hash = fh)) ++ batch

/-- Rows of one file hash, in table order (the `filter_by` part of both
`get_file_chunks` and `delete_file_mapping`). -/
def rowsOf (tbl : List MappingRow) (fh : Bytes) : List MappingRow :=
  tbl.filter (fun m => decide (m.file_hash = fh))

/-- `FileChunkMapping.get_file_chunks`: rows of the file hash ordered by
`chunk_index`. -/
def get_file_chunks (tbl : List MappingRow) (fh : Bytes) : List MappingRow :=
  sortByKey (fun m => m.chunk_index) (rowsOf tbl fh)

/-- Number of mapping rows (across all file hashes, one per occurrence)
whose `chunk_hash` references `h`. -/
def mapCount (tbl : List MappingRow) (h : Bytes) : Nat :=
  tbl.countP (fun m => decide (m.chunk_hash = h))

/-! ## Filesystem primitives -/

/-- `_get_chunk_storage_path`: shard subdirectory = first two characters
of the hash, filename = the full hash. -/
def chunkPath (h : Bytes) : Bytes × Bytes := (h.take 2, h)

/-- Content of the file at a path, if present. -/
def fsLookup : List FsEntry → Bytes × Bytes → Option Bytes
  | [], _ => none
  | e :: rest, p => if e.path = p then some e.content else fsLookup rest p

/-- `open(path, "wb")`: overwrite the file at the path, creating it when
absent. -/
def fsWrite : List FsEntry → Bytes × Bytes → Bytes → List FsEntry
  | [], p, c => [⟨p.1, p.2, c⟩]
  | e :: rest, p, c => if e.path = p then ⟨p.1, p.2, c⟩ :: rest else e :: fsWrite rest p c

/-- `os.remove(path)` guarded by `os.path.exists`: remove the file at the
path when present. -/
def fsErase : List FsEntry → Bytes × Bytes → List FsEntry
  | [], _ => []
  | e :: rest, p => if e.path = p then rest else e :: fsErase rest p

/-! ## The engine (`DatabaseChunkStore`) -/

/-- Per-store configuration: the gzip module, the digest function, the
configured chunk size and `Config.ENABLE_COMPRESSION`.  The constructor
coerces a falsy `chunk_size` (`None` or `0`) to the 4 MiB default, so the
effective chunk size is always positive; `cs_pos` records that. -/
structure Ctx where
  g : GzipModel
  sha : Bytes → Bytes
  chunk_size : Nat
  enabled : Bool
  cs_pos : 0 < chunk_size

/-- `store_chunk(chunk_data, chunk_hash) → (is_new, storage_path)`.
The dedup branch calls `increment_ref` without field arguments (they are
unused because the row exists); the new-chunk branch compresses, writes
the blob, then creates the row via `increment_ref` with all fields.  The
failure/rollback branch is unreachable in the sequential failure-free
model. -/
def store_chunk (C : Ctx) (s : StoreState) (chunk_data : Bytes) (h : Bytes) :
    StoreState × Bool × (Bytes × Bytes) :=
  let path := chunkPath h
  if Chunk_exists s.chunks h then
    ({ s with chunks := (Chunk_increment_ref s.chunks h 0 path 0).1 }, false, path)
  else
    let cd := compress_for_storage C.g chunk_data C.enabled
    ({ s with
        chunks := (Chunk_increment_ref s.chunks h chunk_data.length path cd.length).1,
        fs := fsWrite s.fs path cd },
      true, path)

/-- `read_chunk(chunk_hash)`: row lookup, blob read, fail-safe
decompression; `none` on a missing row or missing blob. -/
def read_chunk (C : Ctx) (s : StoreState) (h : Bytes) : Option Bytes :=
  match lookupChunk s.chunks h with
  | none => none
  | some row =>
    match fsLookup s.fs row.storage_path with
    | none => none
    | some blob => some (decompress_from_storage C.g blob C.enabled)

/-- `delete_chunk(chunk_hash)`: decrement, and when the count reached zero
with a truthy storage path, remove the physical file and report `True`
(the source returns `True` whether or not the file was still on disk). -/
def delete_chunk (s : StoreState) (h : Bytes) : StoreState × Bool :=
  let r := Chunk_decrement_ref s.chunks h
  match r.2 with
  | none => ({ s with chunks := r.1 }, false)
  | some (rc, opath) =>
    match opath with
    | some path =>
      if rc = 0 then ({ s with chunks := r.1, fs := fsErase s.fs path }, true)
      else ({ s with chunks := r.1 }, false)
    | none => ({ s with chunks := r.1 }, false)

/-- The per-chunk loop shared by `store_file` and `store_file_stream`:
store every chunk, counting the new ones and collecting the mapping rows
(the `file_hash` field is filled in here rather than in `create_mapping`,
which in the source copies it verbatim into every row). -/
def storeChunksLoop (C : Ctx) (fh : Bytes) :
    StoreState → List ChunkInfo → StoreState × Nat × List MappingRow
  | s, [] => (s, 0, [])
  | s, c :: rest =>
    let step := store_chunk C s c.data c.hash
    let next := storeChunksLoop C fh step.1 rest
    (next.1, (if step.2.1 then 1 else 0) + next.2.1,
      ⟨fh, c.hash, c.index, c.offset, c.size⟩ :: next.2.2)

/-- The result dictionary of `store_file` / `store_file_stream`. -/
structure StoreFileRes where
  file_hash : Bytes
  total_size : Nat
  chunk_count : Nat
  new_chunks : Nat
deriving DecidableEq, Repr

/-- `store_file(file_data)`: split, hash, store every chunk, replace the
mapping batch. -/
def store_file (C : Ctx) (s : StoreState) (file_data : Bytes) :
    StoreState × StoreFileRes :=
  let chunks := split_file_to_chunks C.sha C.chunk_size file_data
  let fh := calc_file_hash C.sha chunks
  let r := storeChunksLoop C fh s chunks
  ({ r.1 with mappings := create_mapping r.1.mappings fh r.2.2 },
    ⟨fh, file_data.length, chunks.length, r.2.1⟩)

/-- `store_file_stream(file_stream)`: the stream splitter, and
`total_size` accumulated from the chunk sizes instead of `len(file_data)`. -/
def store_file_stream (C : Ctx) (s : StoreState) (file_data : Bytes) :
    StoreState × StoreFileRes :=
  let chunks := split_file_stream_to_chunks C.sha C.chunk_size file_data
  let fh := calc_file_hash C.sha chunks
  let r := storeChunksLoop C fh s chunks
  ({ r.1 with mappings := create_mapping r.1.mappings fh r.2.2 },
    ⟨fh, (chunks.map (fun c => c.size)).sum, chunks.length, r.2.1⟩)

/-- The assembly loop of `read_file`: read every chunk in mapping order,
fail on a missing chunk or a decompressed-size mismatch, concatenate. -/
def readLoop (C : Ctx) (s : StoreState) : List MappingRow → Option Bytes
  | [] => some []
  | m :: rest =>
    match read_chunk C s m.chunk_hash with
    | none => none
    | some d =>
      if d.length = m.chunk_size then (readLoop C s rest).map (fun t => d ++ t)
      else none

/-- `read_file(file_hash)`: `None` when the mapping batch is empty,
otherwise the assembled bytes (or `None` on any chunk failure). -/
def read_file (C : Ctx) (s : StoreState) (fh : Bytes) : Option Bytes :=
  let ms := get_file_chunks s.mappings fh
  if ms = [] then none else readLoop C s ms

/-- The per-hash loop of `delete_file`, counting actually-deleted and
remaining chunks. -/
def deleteChunksLoop : StoreState → List Bytes → StoreState × Nat × Nat
  | s, [] => (s, 0, 0)
  | s, h :: rest =>
    let step := delete_chunk s h
    let next := deleteChunksLoop step.1 rest
    if step.2 then (next.1, next.2.1 + 1, next.2.2)
    else (next.1, next.2.1, next.2.2 + 1)

/-- `delete_file(file_hash)`: `delete_file_mapping` collects the chunk
hashes of the batch in table order and deletes the batch, then every
collected hash is decremented once. -/
def delete_file (s : StoreState) (fh : Bytes) : StoreState × Nat × Nat :=
  let hs := (rowsOf s.mappings fh).map (fun m => m.chunk_hash)
  deleteChunksLoop
    { s with mappings := s.mappings.filter (fun m => !decide (m.file_hash = fh)) } hs

/-- `file_exists(file_hash)`. -/
def file_exists (s : StoreState) (fh : Bytes) : Bool :=
  decide (0 < (get_file_chunks s.mappings fh).length)

/-- `ord(c.lower())` for an ASCII byte. -/
def toLowerByte (c : Nat) : Nat := if 65 ≤ c ∧ c ≤ 90 then c + 32 else c

/-- Membership in `'0123456789abcdef'`. -/
def isHexLowerByte (c : Nat) : Bool :=
  (decide (48 ≤ c) && decide (c ≤ 57)) || (decide (97 ≤ c) && decide (c ≤ 102))

/-- The filename test of `cleanup_orphaned_chunks`:
`len(filename) == 64 and all(c in '0123456789abcdef' for c in filename.lower())`. -/
def isValidHashName (f : Bytes) : Bool :=
  decide (f.length = 64) && f.all (fun c => isHexLowerByte (toLowerByte c))

/-- The directory walk of `cleanup_orphaned_chunks`.  The nested
`os.listdir` loops visit each file of each shard subdirectory exactly once
and never modify the chunk table, so the walk is one pass over the file
entries: a file with a hash-shaped name and no `Chunk` row is removed and
counted, everything else is kept. -/
def cleanupLoop (tbl : ChunkTable) : List FsEntry → List FsEntry × Nat
  | [] => ([], 0)
  | e :: rest =>
    let next := cleanupLoop tbl rest
    if isValidHashName e.filename && !Chunk_exists tbl e.filename then
      (next.1, next.2 + 1)
    else (e :: next.1, next.2)

/-- `cleanup_orphaned_chunks()`. -/
def cleanup_orphaned_chunks (s : StoreState) : StoreState × Nat :=
  let r := cleanupLoop s.chunks s.fs
  ({ s with fs := r.1 }, r.2)

/-! ## Reachability and invariants -/

/-- States reachable from an empty store by any sequence of the file-level
operations `store_file`, `store_file_stream`, `delete_file` and the
maintenance operation `cleanup_orphaned_chunks`. -/
inductive Reach (C : Ctx) : StoreState → Prop
  | init : Reach C emptyState
  | store (s b) : Reach C s → Reach C (store_file C s b).1
  | storeStream (s b) : Reach C s → Reach C (store_file_stream C s b).1
  | del (s fh) : Reach C s → Reach C (delete_file s fh).1
  | cleanup (s) : Reach C s → Reach C (cleanup_orphaned_chunks s).1

/-- States reachable by `store_file` / `store_file_stream` / `delete_file`
sequences in which no store call re-stores a file hash that already has a
mapping batch (the store constructors carry that freshness side
condition). -/
inductive ReachFresh (C : Ctx) : StoreState → Prop
  | init : ReachFresh C emptyState
  | store (s b) : ReachFresh C s →
      file_exists s (store_file C s b).2.file_hash = false →
      ReachFresh C (store_file C s b).1
  | storeStream (s b) : ReachFresh C s →
      file_exists s (store_file_stream C s b).2.file_hash = false →
      ReachFresh C (store_file_stream C s b).1
  | del (s fh) : ReachFresh C s → ReachFresh C (delete_file s fh).1

/-- The physical invariant used by the read-back theorem: every chunk row
stores, at its canonical path, the codec image of some nonempty original
byte string whose digest is the row's key. -/
def WFBlob (C : Ctx) (s : StoreState) : Prop :=
  ∀ h row, lookupChunk s.chunks h = some row →
    ∃ d : Bytes, d ≠ [] ∧ C.sha d = h ∧ row.storage_path = chunkPath h ∧
      fsLookup s.fs (chunkPath h) = some (compress_for_storage C.g d C.enabled)

/-! ## Concrete instances for witnesses and counterexamples -/

/-- A concrete gzip model: prefix the magic and a marker byte.  It
satisfies the two format facts of `GzipModel` and makes every
gzip-magic-prefixed input of length at least three decompressible, which
is what the counterexamples need. -/
def gzToy : GzipModel where
  compr := fun x => 31 :: 139 :: 0 :: x
  decompr := fun b =>
    match b with
    | 31 :: 139 :: _ :: rest => some rest
    | _ => none
  compr_magic := fun x => by simp [is_gzip, GZIP_MAGIC]
  decompr_compr := fun x => rfl

/-- A concrete collision-free digest for witnesses (the identity on byte
strings). -/
def shaId : Bytes → Bytes := fun x => x

/-- A concrete store configuration: toy gzip, identity digest, chunk size
2, compression enabled. -/
def ctx0 : Ctx := ⟨gzToy, shaId, 2, true, by decide⟩

/-- The chunk-hash list `delete_file_mapping` returns for a file hash:
one entry per mapping row of the batch, in table order. -/
def batchHashes (s : StoreState) (fh : Bytes) : List Bytes :=
  (rowsOf s.mappings fh).map (fun m => m.chunk_hash)

/-- The claim wording of a syntactically valid content hash filename:
64 characters, each a lowercase hex digit (no case folding).  The source
code folds case first; comparing the two is what settles the cleanup
claim. -/
def isLowercaseHexName (f : Bytes) : Bool :=
  decide (f.length = 64) && f.all isHexLowerByte

/-- A second concrete configuration whose chunk size covers a three-byte
gzip-prefixed buffer with a single chunk. -/
def ctx3 : Ctx := ⟨gzToy, shaId, 3, true, by decide⟩

/-- Everything the per-hash decrement loop of `delete_file` does to a state,
assuming every batch hash has at least its batch multiplicity as its
reference count (which the metadata invariant guarantees). -/
structure DelFoldFacts (s s' : StoreState) (L : List Bytes) (d rem : Nat) : Prop where
  mappings_eq : s'.mappings = s.mappings
  refCnt_eq : ∀ h, refCnt s'.chunks h = refCnt s.chunks h - L.count h
  lookup_zero : ∀ h, L.count h = 0 →
      lookupChunk s'.chunks h = lookupChunk s.chunks h
  lookup_freed : ∀ h row, lookupChunk s.chunks h = some row →
      row.ref_count = (L.count h : Int) → 0 < L.count h →
      lookupChunk s'.chunks h = none ∧ fsLookup s'.fs (chunkPath h) = none
  lookup_kept : ∀ h row, lookupChunk s.chunks h = some row →
      (L.count h : Int) < row.ref_count →
      lookupChunk s'.chunks h = some { row with ref_count := row.ref_count - L.count h }
  deleted_eq : d = (L.toFinset.filter
      (fun h => refCnt s.chunks h = (L.count h : Int))).card
  total_eq : d + rem = L.length
  fs_untouched : ∀ p,
      (∀ h ∈ L, refCnt s.chunks h = (L.count h : Int) → p ≠ chunkPath h) →
      fsLookup s'.fs p = fsLookup s.fs p
  keys_nodup : (s'.chunks.map (fun e => e.1)).Nodup
  paths_nodup : (s'.fs.map FsEntry.path).Nodup

/-- Structural well-formedness every reachable state has: unique table
keys and file paths, positive reference counts with canonical storage
paths, and every chunk row backed by the codec image of its original
bytes. -/
def BaseInv (C : Ctx) (s : StoreState) : Prop :=
  (s.chunks.map (fun e => e.1)).Nodup ∧
  (s.fs.map FsEntry.path).Nodup ∧
  (∀ h row, lookupChunk s.chunks h = some row →
      0 < row.ref_count ∧ row.storage_path = chunkPath h) ∧
  WFBlob C s

/-- The dedup accounting invariant: every hash's reference count equals
the number of mapping rows that reference it (0 when no row exists). -/
def RefInv (s : StoreState) : Prop :=
  ∀ h, refCnt s.chunks h = (mapCount s.mappings h : Int)

/-- The one-sided accounting invariant that survives unrestricted
operation sequences: a hash's reference count is at least the number of
mapping rows referencing it.  Re-storing existing content pushes the
count above the row count but never below it, and deletion lowers both
sides equally. -/
def RefGeInv (s : StoreState) : Prop :=
  ∀ h, (mapCount s.mappings h : Int) ≤ refCnt s.chunks h

/-! ## Lemmas: association-list and filesystem primitives -/

theorem lookupChunk_append (t1 t2 : ChunkTable) (h : Bytes) :
    lookupChunk (t1 ++ t2) h =
      match lookupChunk t1 h with
      | some r => some r
      | none => lookupChunk t2 h := by
  induction t1 with
  | nil => simp [lookupChunk]
  | cons e rest ih =>
    by_cases he : e.1 = h <;> simp [lookupChunk, he, ih]

theorem lookupChunk_updateChunk (tbl : ChunkTable) (h h' : Bytes) (r : ChunkRow) :
    lookupChunk (updateChunk tbl h r) h' =
      if h' = h then (lookupChunk tbl h).map (fun _ => r) else lookupChunk tbl h' := by
  induction tbl with
  | nil => simp [updateChunk, lookupChunk]
  | cons e rest ih =>
    obtain ⟨k, row⟩ := e
    by_cases he : k = h
    · subst he
      by_cases hh : h' = k
      · subst hh; simp [updateChunk, lookupChunk]
      · have hk : ¬k = h' := fun hc => hh hc.symm
        simp [updateChunk, lookupChunk, hh, hk]
    · by_cases hh : h' = k
      · subst hh
        simp [updateChunk, lookupChunk, he]
      · have hk : ¬k = h' := fun hc => hh hc.symm
        by_cases h2 : h' = h
        · subst h2; simp [updateChunk, lookupChunk, he, hk, ih]
        · simp [updateChunk, lookupChunk, he, hk, h2, ih]

theorem keys_updateChunk (tbl : ChunkTable) (h : Bytes) (r : ChunkRow) :
    (updateChunk tbl h r).map (fun e => e.1) = tbl.map (fun e => e.1) := by
  induction tbl with
  | nil => simp [updateChunk]
  | cons e rest ih =>
    by_cases he : e.1 = h
    · simp only [updateChunk, if_pos he, List.map_cons]
      rw [he]
    · simp [updateChunk, he, ih]

theorem eraseChunk_sublist (tbl : ChunkTable) (h : Bytes) :
    (eraseChunk tbl h).Sublist tbl := by
  induction tbl with
  | nil => simp [eraseChunk]
  | cons e rest ih =>
    by_cases he : e.1 = h
    · rw [show eraseChunk (e :: rest) h = rest by simp [eraseChunk, he]]
      exact List.sublist_cons_self e rest
    · rw [show eraseChunk (e :: rest) h = e :: eraseChunk rest h by simp [eraseChunk, he]]
      exact ih.cons₂ e

theorem lookupChunk_eq_none_iff (tbl : ChunkTable) (h : Bytes) :
    lookupChunk tbl h = none ↔ h ∉ tbl.map (fun e => e.1) := by
  induction tbl with
  | nil => simp [lookupChunk]
  | cons e rest ih =>
    by_cases he : e.1 = h
    · simp [lookupChunk, he]
    · simp only [lookupChunk, if_neg he, List.map_cons, List.mem_cons, not_or, ih]
      exact ⟨fun hn => ⟨fun hc => he hc.symm, hn⟩, fun hp => hp.2⟩

theorem lookupChunk_eraseChunk (tbl : ChunkTable) (h h' : Bytes)
    (hnd : (tbl.map (fun e => e.1)).Nodup) :
    lookupChunk (eraseChunk tbl h) h' =
      if h' = h then none else lookupChunk tbl h' := by
  induction tbl with
  | nil => simp [eraseChunk, lookupChunk]
  | cons e rest ih =>
    simp only [List.map_cons, List.nodup_cons] at hnd
    obtain ⟨k, row⟩ := e
    by_cases he : k = h
    · subst he
      by_cases hh : h' = k
      · subst hh
        simp only [eraseChunk, if_pos rfl, if_true]
        exact (lookupChunk_eq_none_iff rest h').mpr hnd.1
      · have hk : ¬k = h' := fun hc => hh hc.symm
        simp [eraseChunk, lookupChunk, hh, hk]
    · by_cases hh : h' = k
      · subst hh
        simp [eraseChunk, lookupChunk, he]
      · have hk : ¬k = h' := fun hc => hh hc.symm
        by_cases h2 : h' = h
        · subst h2; simp [eraseChunk, lookupChunk, he, hk, ih hnd.2]
        · simp [eraseChunk, lookupChunk, he, hk, h2, ih hnd.2]

theorem fsLookup_fsWrite (fs : List FsEntry) (p q : Bytes × Bytes) (c : Bytes) :
    fsLookup (fsWrite fs p c) q = if q = p then some c else fsLookup fs q := by
  induction fs with
  | nil =>
    by_cases hq : q = p
    · subst hq; simp [fsWrite, fsLookup, FsEntry.path]
    · have : ¬(p.1, p.2) = q := fun hc => hq (by rw [← hc])
      simp [fsWrite, fsLookup, FsEntry.path, hq, this]
  | cons e rest ih =>
    obtain ⟨es, ef, ec⟩ := e
    by_cases he : (es, ef) = p
    · by_cases hq : q = p
      · subst hq
        simp [fsWrite, fsLookup, FsEntry.path, he]
      · have h1 : ¬(p.1, p.2) = q := fun hc => hq (by rw [← hc])
        have h2 : ¬(es, ef) = q := fun hc => hq (by rw [← hc, ← he])
        simp [fsWrite, fsLookup, FsEntry.path, he, hq, h1, h2]
    · by_cases hq : (es, ef) = q
      · have h3 : ¬q = p := fun hc => he (by rw [hq, hc])
        simp [fsWrite, fsLookup, FsEntry.path, he, hq, h3]
      · by_cases h2 : q = p
        · subst h2; simp [fsWrite, fsLookup, FsEntry.path, he, hq, ih]
        · simp [fsWrite, fsLookup, FsEntry.path, he, hq, h2, ih]

theorem fsErase_sublist (fs : List FsEntry) (p : Bytes × Bytes) :
    (fsErase fs p).Sublist fs := by
  induction fs with
  | nil => simp [fsErase]
  | cons e rest ih =>
    by_cases he : e.path = p
    · rw [show fsErase (e :: rest) p = rest by simp [fsErase, he]]
      exact List.sublist_cons_self e rest
    · rw [show fsErase (e :: rest) p = e :: fsErase rest p by simp [fsErase, he]]
      exact ih.cons₂ e

theorem fsLookup_eq_none_iff (fs : List FsEntry) (p : Bytes × Bytes) :
    fsLookup fs p = none ↔ p ∉ fs.map FsEntry.path := by
  induction fs with
  | nil => simp [fsLookup]
  | cons e rest ih =>
    by_cases he : e.path = p
    · simp [fsLookup, he]
    · simp only [fsLookup, if_neg he, List.map_cons, List.mem_cons, not_or, ih]
      exact ⟨fun hn => ⟨fun hc => he hc.symm, hn⟩, fun hp => hp.2⟩

theorem fsLookup_fsErase (fs : List FsEntry) (p q : Bytes × Bytes)
    (hnd : (fs.map FsEntry.path).Nodup) :
    fsLookup (fsErase fs p) q = if q = p then none else fsLookup fs q := by
  induction fs with
  | nil => simp [fsErase, fsLookup]
  | cons e rest ih =>
    simp only [List.map_cons, List.nodup_cons] at hnd
    by_cases he : e.path = p
    · by_cases hq : q = p
      · subst hq
        simp only [fsErase, if_pos he, if_true]
        exact (fsLookup_eq_none_iff rest q).mpr (he ▸ hnd.1)
      · have h2 : ¬e.path = q := fun hc => hq (he ▸ hc.symm ▸ rfl)
        have hpq : ¬p = q := fun hc => hq hc.symm
        simp [fsErase, fsLookup, he, hq, h2, hpq]
    · by_cases hq : e.path = q
      · have : ¬q = p := fun hc => he (hq ▸ hc ▸ rfl)
        simp [fsErase, fsLookup, he, hq, this]
      · by_cases h2 : q = p
        · subst h2; simp [fsErase, fsLookup, he, hq, ih hnd.2]
        · simp [fsErase, fsLookup, he, hq, h2, ih hnd.2]

theorem mem_paths_fsWrite (fs : List FsEntry) (p : Bytes × Bytes) (c : Bytes)
    (x : Bytes × Bytes) (hx : x ∈ (fsWrite fs p c).map FsEntry.path) :
    x ∈ fs.map FsEntry.path ∨ x = p := by
  induction fs with
  | nil =>
    right
    simpa [fsWrite, FsEntry.path] using hx
  | cons e rest ih =>
    by_cases he : e.path = p
    · rw [show fsWrite (e :: rest) p c = ⟨p.1, p.2, c⟩ :: rest from by
        simp [fsWrite, he]] at hx
      simp only [List.map_cons, List.mem_cons] at hx ⊢
      rcases hx with hx | hx
      · right; simpa [FsEntry.path] using hx
      · exact Or.inl (Or.inr hx)
    · rw [show fsWrite (e :: rest) p c = e :: fsWrite rest p c from by
        simp [fsWrite, he]] at hx
      simp only [List.map_cons, List.mem_cons] at hx ⊢
      rcases hx with hx | hx
      · exact Or.inl (Or.inl hx)
      · rcases ih hx with hy | hy
        · exact Or.inl (Or.inr hy)
        · exact Or.inr hy

theorem paths_fsWrite_nodup (fs : List FsEntry) (p : Bytes × Bytes) (c : Bytes)
    (hnd : (fs.map FsEntry.path).Nodup) :
    ((fsWrite fs p c).map FsEntry.path).Nodup := by
  induction fs with
  | nil => simp [fsWrite, FsEntry.path]
  | cons e rest ih =>
    simp only [List.map_cons, List.nodup_cons] at hnd
    by_cases he : e.path = p
    · rw [show fsWrite (e :: rest) p c = ⟨p.1, p.2, c⟩ :: rest from by
        simp [fsWrite, he]]
      simp only [List.map_cons, List.nodup_cons]
      refine ⟨?_, hnd.2⟩
      have hp : FsEntry.path ⟨p.1, p.2, c⟩ = p := by simp [FsEntry.path]
      rw [hp]
      exact he ▸ hnd.1
    · rw [show fsWrite (e :: rest) p c = e :: fsWrite rest p c from by
        simp [fsWrite, he]]
      simp only [List.map_cons, List.nodup_cons]
      refine ⟨?_, ih hnd.2⟩
      intro hmem
      rcases mem_paths_fsWrite rest p c e.path hmem with hy | hy
      · exact hnd.1 hy
      · exact he hy

theorem fsLookup_filter_filename (P : Bytes → Bool) (fs : List FsEntry)
    (q : Bytes × Bytes) :
    fsLookup (fs.filter (fun e => P e.filename)) q =
      if P q.2 then fsLookup fs q else none := by
  induction fs with
  | nil => simp [fsLookup]
  | cons e rest ih =>
    by_cases he : e.path = q
    · have hfn : e.filename = q.2 := by rw [← he]; rfl
      by_cases hP : P e.filename = true
      · have hPq : P q.2 = true := hfn ▸ hP
        simp [List.filter_cons, fsLookup, he, hP, hPq]
      · have hPq : ¬P q.2 = true := fun hc => hP (by rw [hfn]; exact hc)
        simp [List.filter_cons, hP, ih, hPq]
    · by_cases hP : P e.filename = true <;>
        simp [List.filter_cons, fsLookup, he, hP, ih]

/-! ## Lemmas: reference-count operations -/

theorem refCnt_eq_of_lookup {tbl : ChunkTable} {h : Bytes} {row : ChunkRow}
    (hl : lookupChunk tbl h = some row) : refCnt tbl h = row.ref_count := by
  simp [refCnt, hl]

theorem refCnt_eq_zero_of_none {tbl : ChunkTable} {h : Bytes}
    (hl : lookupChunk tbl h = none) : refCnt tbl h = 0 := by
  simp [refCnt, hl]

theorem lookup_increment_ref (tbl : ChunkTable) (h h' : Bytes) (sz : Nat)
    (p : Bytes × Bytes) (cz : Nat) :
    lookupChunk (Chunk_increment_ref tbl h sz p cz).1 h' =
      if h' = h then
        match lookupChunk tbl h with
        | some row => some { row with ref_count := row.ref_count + 1 }
        | none => some ⟨sz, 1, p, cz⟩
      else lookupChunk tbl h' := by
  unfold Chunk_increment_ref
  cases hl : lookupChunk tbl h with
  | some row =>
    simp only [lookupChunk_updateChunk, hl]
    by_cases hh : h' = h <;> simp [hh]
  | none =>
    simp only [insertChunk, lookupChunk_append]
    by_cases hh : h' = h
    · subst hh; simp [hl, lookupChunk]
    · have hh2 : ¬h = h' := fun hc => hh hc.symm
      cases hl2 : lookupChunk tbl h' <;> simp [hl2, lookupChunk, hh, hh2]

theorem refCnt_increment_ref (tbl : ChunkTable) (h h' : Bytes) (sz : Nat)
    (p : Bytes × Bytes) (cz : Nat) :
    refCnt (Chunk_increment_ref tbl h sz p cz).1 h' =
      refCnt tbl h' + if h' = h then 1 else 0 := by
  rw [refCnt, lookup_increment_ref]
  by_cases hh : h' = h
  · subst hh
    cases hl : lookupChunk tbl h' <;> simp [refCnt, hl]
  · simp [hh, refCnt]

theorem exists_increment_ref (tbl : ChunkTable) (h h' : Bytes) (sz : Nat)
    (p : Bytes × Bytes) (cz : Nat) :
    Chunk_exists (Chunk_increment_ref tbl h sz p cz).1 h' =
      (Chunk_exists tbl h' || decide (h' = h)) := by
  rw [Chunk_exists, lookup_increment_ref]
  by_cases hh : h' = h
  · subst hh; cases hl : lookupChunk tbl h' <;> simp [Chunk_exists, hl]
  · simp [hh, Chunk_exists]

theorem keys_increment_ref_nodup (tbl : ChunkTable) (h : Bytes) (sz : Nat)
    (p : Bytes × Bytes) (cz : Nat)
    (hnd : (tbl.map (fun e => e.1)).Nodup) :
    ((Chunk_increment_ref tbl h sz p cz).1.map (fun e => e.1)).Nodup := by
  unfold Chunk_increment_ref
  cases hl : lookupChunk tbl h with
  | some row => simpa [keys_updateChunk] using hnd
  | none =>
    simp only [insertChunk, List.map_append, List.map_cons, List.map_nil]
    rw [List.nodup_append]
    refine ⟨hnd, List.nodup_singleton h, ?_⟩
    intro x hx hx1
    simp only [List.mem_singleton] at hx1
    subst hx1
    exact ((lookupChunk_eq_none_iff tbl x).mp hl) hx

theorem decrement_ref_of_none {tbl : ChunkTable} {h : Bytes}
    (hl : lookupChunk tbl h = none) :
    Chunk_decrement_ref tbl h = (tbl, none) := by
  simp [Chunk_decrement_ref, hl]

theorem decrement_ref_of_le_one {tbl : ChunkTable} {h : Bytes} {row : ChunkRow}
    (hl : lookupChunk tbl h = some row) (hle : row.ref_count ≤ 1) :
    Chunk_decrement_ref tbl h = (eraseChunk tbl h, some (0, some row.storage_path)) := by
  have hz : max 0 (row.ref_count - 1) = 0 := by omega
  simp [Chunk_decrement_ref, hl, hz]

theorem decrement_ref_of_gt_one {tbl : ChunkTable} {h : Bytes} {row : ChunkRow}
    (hl : lookupChunk tbl h = some row) (hgt : 1 < row.ref_count) :
    Chunk_decrement_ref tbl h =
      (updateChunk tbl h { row with ref_count := row.ref_count - 1 },
        some (row.ref_count - 1, none)) := by
  have hz : max 0 (row.ref_count - 1) = row.ref_count - 1 := by omega
  have hnz : ¬row.ref_count - 1 = 0 := by omega
  simp [Chunk_decrement_ref, hl, hz, hnz]

/-! ## Lemmas: `delete_chunk` -/

theorem delete_chunk_of_none {s : StoreState} {h : Bytes}
    (hl : lookupChunk s.chunks h = none) :
    delete_chunk s h = (s, false) := by
  simp [delete_chunk, decrement_ref_of_none hl]

theorem delete_chunk_of_le_one {s : StoreState} {h : Bytes} {row : ChunkRow}
    (hl : lookupChunk s.chunks h = some row) (hle : row.ref_count ≤ 1) :
    delete_chunk s h =
      ({ s with chunks := eraseChunk s.chunks h,
                fs := fsErase s.fs row.storage_path }, true) := by
  simp [delete_chunk, decrement_ref_of_le_one hl hle]

theorem delete_chunk_of_gt_one {s : StoreState} {h : Bytes} {row : ChunkRow}
    (hl : lookupChunk s.chunks h = some row) (hgt : 1 < row.ref_count) :
    delete_chunk s h =
      ({ s with chunks :=
          updateChunk s.chunks h { row with ref_count := row.ref_count - 1 } },
        false) := by
  simp [delete_chunk, decrement_ref_of_gt_one hl hgt]

/-! ## Lemmas: chunking -/

theorem take_eq_take_min (data : Bytes) (cs : Nat) :
    data.take cs = data.take (min cs data.length) := by
  rcases le_total cs data.length with hle | hle
  · rw [min_eq_left hle]
  · rw [min_eq_right hle, List.take_of_length_le hle, List.take_length]

theorem drop_eq_drop_min (data : Bytes) (cs : Nat) :
    data.drop cs = data.drop (min cs data.length) := by
  rcases le_total cs data.length with hle | hle
  · rw [min_eq_left hle]
  · rw [min_eq_right hle, List.drop_of_length_le hle, List.drop_length]

theorem splitLoop_flatten (sha : Bytes → Bytes) (cs : Nat) (hcs : 0 < cs) :
    ∀ fuel data offset idx, data.length ≤ fuel →
      ((splitLoop sha cs fuel data offset idx).map (fun c => c.data)).flatten = data := by
  intro fuel
  induction fuel with
  | zero =>
    intro data offset idx hle
    have hd : data = [] := List.eq_nil_of_length_eq_zero (Nat.le_zero.mp hle)
    simp [splitLoop, hd]
  | succ n ih =>
    intro data offset idx hle
    by_cases hd : data = []
    · simp [splitLoop, hd]
    · have hlen : 0 < data.length := List.length_pos.mpr hd
      have hsz : 0 < min cs data.length := lt_min hcs hlen
      simp only [splitLoop, hd, if_neg, ite_false, List.map_cons, List.flatten_cons]
      rw [ih (data.drop (min cs data.length)) _ _ (by simp [List.length_drop]; omega)]
      exact List.take_append_drop _ data

theorem splitLoop_mem (sha : Bytes → Bytes) (cs : Nat) (hcs : 0 < cs) :
    ∀ fuel data offset idx c, c ∈ splitLoop sha cs fuel data offset idx →
      c.hash = sha c.data ∧ c.data ≠ [] ∧ c.size = c.data.length := by
  intro fuel
  induction fuel with
  | zero => intro data offset idx c hc; simp [splitLoop] at hc
  | succ n ih =>
    intro data offset idx c hc
    by_cases hd : data = []
    · simp [splitLoop, hd] at hc
    · have hlen : 0 < data.length := List.length_pos.mpr hd
      have hsz : 0 < min cs data.length := lt_min hcs hlen
      have hszle : min cs data.length ≤ data.length := min_le_right _ _
      simp only [splitLoop, hd, if_neg, ite_false, List.mem_cons] at hc
      rcases hc with hc | hc
      · subst hc
        refine ⟨rfl, ?_, ?_⟩
        · apply List.ne_nil_of_length_pos
          simpa [List.length_take] using hsz
        · simp [List.length_take, min_eq_left hszle]
      · exact ih _ _ _ _ hc

theorem splitLoop_chain (sha : Bytes → Bytes) (cs : Nat) :
    ∀ fuel data offset idx,
      (splitLoop sha cs fuel data offset idx).Chain'
        (fun a b => a.index < b.index) ∧
      ∀ c ∈ splitLoop sha cs fuel data offset idx, idx ≤ c.index := by
  intro fuel
  induction fuel with
  | zero => intro data offset idx; simp [splitLoop]
  | succ n ih =>
    intro data offset idx
    by_cases hd : data = []
    · simp [splitLoop, hd]
    · obtain ⟨ihc, ihm⟩ := ih (data.drop (min cs data.length))
        (offset + min cs data.length) (idx + 1)
      constructor
      · simp only [splitLoop, hd, if_neg, ite_false]
        rw [List.chain'_cons']
        refine ⟨?_, ihc⟩
        intro b hb
        have hbm : b ∈ splitLoop sha cs n (data.drop (min cs data.length))
            (offset + min cs data.length) (idx + 1) := List.mem_of_mem_head? hb
        have := ihm b hbm
        simpa using Nat.lt_of_lt_of_le (Nat.lt_succ_self idx) this
      · intro c hc
        simp only [splitLoop, hd, if_neg, ite_false, List.mem_cons] at hc
        rcases hc with hc | hc
        · subst hc; exact le_refl idx
        · exact Nat.le_of_succ_le (ihm c hc)

theorem sortByKey_eq_self {α : Type} (key : α → Nat) (l : List α)
    (hl : l.Chain' (fun a b => key a < key b)) : sortByKey key l = l := by
  induction l with
  | nil => rfl
  | cons a rest ih =>
    rw [sortByKey, ih hl.tail]
    cases rest with
    | nil => rfl
    | cons b rest2 =>
      have hab : key a < key b := (List.chain'_cons.mp hl).1
      simp [insertByKey, hab]

theorem calc_file_hash_split (sha : Bytes → Bytes) (cs : Nat) (b : Bytes) :
    calc_file_hash sha (split_file_to_chunks sha cs b) =
      sha (((split_file_to_chunks sha cs b).map (fun c => c.hash)).flatten) := by
  unfold calc_file_hash
  rw [sortByKey_eq_self (fun c => c.index) (split_file_to_chunks sha cs b)
    (splitLoop_chain sha cs b.length b 0 0).1]

theorem splitStreamLoop_eq_splitLoop (sha : Bytes → Bytes) (cs : Nat)
    (hcs : 0 < cs) :
    ∀ fuel data offset idx,
      splitStreamLoop sha cs fuel data offset idx =
        splitLoop sha cs fuel data offset idx := by
  intro fuel
  induction fuel with
  | zero => intro data offset idx; rfl
  | succ n ih =>
    intro data offset idx
    by_cases hd : data = []
    · subst hd; simp [splitStreamLoop, splitLoop]
    · have hlen : 0 < data.length := List.length_pos.mpr hd
      have htke : data.take cs ≠ [] := by
        apply List.ne_nil_of_length_pos
        simp only [List.length_take]
        exact lt_min hcs hlen
      have hszle : min cs data.length ≤ data.length := min_le_right _ _
      simp only [splitStreamLoop, splitLoop, hd, htke, if_neg, ite_false]
      rw [take_eq_take_min data cs, drop_eq_drop_min data cs]
      rw [List.length_take, min_eq_left (min_le_right cs data.length)]
      rw [ih]

/-- C3 as a statement about whole inputs: the stream splitter and the
in-memory splitter agree chunk for chunk. -/
theorem split_stream_eq_split (sha : Bytes → Bytes) (cs : Nat) (hcs : 0 < cs)
    (b : Bytes) :
    split_file_stream_to_chunks sha cs b = split_file_to_chunks sha cs b :=
  splitStreamLoop_eq_splitLoop sha cs hcs b.length b 0 0

/-! ## Lemmas: sorting and the mapping table -/

theorem insertByKey_perm {α : Type} (key : α → Nat) (a : α) (l : List α) :
    (insertByKey key a l).Perm (a :: l) := by
  induction l with
  | nil => simp [insertByKey]
  | cons b rest ih =>
    by_cases hab : key a < key b
    · simp [insertByKey, hab]
    · rw [show insertByKey key a (b :: rest) = b :: insertByKey key a rest from by
        simp [insertByKey, hab]]
      exact (ih.cons b).trans (List.Perm.swap a b rest)

theorem sortByKey_perm {α : Type} (key : α → Nat) (l : List α) :
    (sortByKey key l).Perm l := by
  induction l with
  | nil => simp [sortByKey]
  | cons a rest ih =>
    exact (insertByKey_perm key a (sortByKey key rest)).trans (ih.cons a)

theorem length_sortByKey {α : Type} (key : α → Nat) (l : List α) :
    (sortByKey key l).length = l.length :=
  (sortByKey_perm key l).length_eq

theorem rowsOf_filter_ne (tbl : List MappingRow) (fh : Bytes) :
    rowsOf (tbl.filter (fun m => !decide (m.file_hash = fh))) fh = [] := by
  induction tbl with
  | nil => rfl
  | cons m rest ih =>
    by_cases hm : m.file_hash = fh
    · simpa [rowsOf, List.filter_cons, hm] using ih
    · simpa [rowsOf, List.filter_cons, hm] using ih

theorem filter_ne_of_rowsOf_nil {tbl : List MappingRow} {fh : Bytes}
    (hz : rowsOf tbl fh = []) :
    tbl.filter (fun m => !decide (m.file_hash = fh)) = tbl := by
  induction tbl with
  | nil => rfl
  | cons m rest ih =>
    by_cases hm : m.file_hash = fh
    · exfalso
      have hmem : m ∈ rowsOf (m :: rest) fh := by
        simp [rowsOf, List.filter_cons, hm]
      rw [hz] at hmem
      exact List.not_mem_nil m hmem
    · have hz2 : rowsOf rest fh = [] := by
        simpa [rowsOf, List.filter_cons, hm] using hz
      rw [show (m :: rest).filter (fun m => !decide (m.file_hash = fh)) =
          m :: rest.filter (fun m => !decide (m.file_hash = fh)) from by
        simp [List.filter_cons, hm]]
      rw [ih hz2]

theorem rowsOf_create_mapping_self (tbl batch : List MappingRow) (fh : Bytes)
    (hb : ∀ m ∈ batch, m.file_hash = fh) :
    rowsOf (create_mapping tbl fh batch) fh = batch := by
  unfold create_mapping rowsOf
  rw [List.filter_append]
  have h1 : (tbl.filter (fun m => !decide (m.file_hash = fh))).filter
      (fun m => decide (m.file_hash = fh)) = [] := rowsOf_filter_ne tbl fh
  rw [h1, List.nil_append]
  exact List.filter_eq_self.mpr (fun m hm => by simpa using hb m hm)

theorem mapCount_append (t1 t2 : List MappingRow) (h : Bytes) :
    mapCount (t1 ++ t2) h = mapCount t1 h + mapCount t2 h := by
  simp [mapCount, List.countP_append]

theorem mapCount_create_mapping_of_fresh {tbl : List MappingRow} {fh : Bytes}
    (batch : List MappingRow) (hz : rowsOf tbl fh = []) (h : Bytes) :
    mapCount (create_mapping tbl fh batch) h = mapCount tbl h + mapCount batch h := by
  unfold create_mapping
  rw [filter_ne_of_rowsOf_nil hz, mapCount_append]

theorem count_map_chunk_hash (l : List MappingRow) (h : Bytes) :
    (l.map (fun m => m.chunk_hash)).count h =
      l.countP (fun m => decide (m.chunk_hash = h)) := by
  induction l with
  | nil => rfl
  | cons m rest ih =>
    by_cases hc : m.chunk_hash = h
    · simp [List.count_cons, List.countP_cons, hc, ih]
    · have hch : ¬h = m.chunk_hash := fun hx => hc hx.symm
      simp [List.count_cons, List.countP_cons, hc, hch, ih]

theorem mapCount_eq_countP_partition (tbl : List MappingRow) (fh h : Bytes) :
    mapCount tbl h =
      mapCount (tbl.filter (fun m => !decide (m.file_hash = fh))) h +
        (rowsOf tbl fh).countP (fun m => decide (m.chunk_hash = h)) := by
  induction tbl with
  | nil => rfl
  | cons m rest ih =>
    simp only [mapCount, rowsOf] at ih ⊢
    by_cases hf : m.file_hash = fh <;> by_cases hc : m.chunk_hash = h <;>
      simp [List.filter_cons, List.countP_cons, hf, hc, ih] <;> omega

theorem file_exists_eq_false_iff (s : StoreState) (fh : Bytes) :
    file_exists s fh = false ↔ rowsOf s.mappings fh = [] := by
  unfold file_exists get_file_chunks
  rw [show ∀ n : Nat, (decide (0 < n) = false ↔ n = 0) from fun n => by
    cases n <;> simp]
  rw [length_sortByKey]
  exact List.length_eq_zero

/-! ## Lemmas: `store_chunk` and the store loop -/

theorem chunkPath_inj {h h' : Bytes} (he : chunkPath h = chunkPath h') : h = h' :=
  congrArg Prod.snd he

theorem store_chunk_mappings (C : Ctx) (s : StoreState) (d h : Bytes) :
    (store_chunk C s d h).1.mappings = s.mappings := by
  unfold store_chunk
  by_cases he : Chunk_exists s.chunks h = true <;> simp [he]

theorem store_chunk_fs (C : Ctx) (s : StoreState) (d h : Bytes) :
    (store_chunk C s d h).1.fs =
      if Chunk_exists s.chunks h then s.fs
      else fsWrite s.fs (chunkPath h) (compress_for_storage C.g d C.enabled) := by
  unfold store_chunk
  by_cases he : Chunk_exists s.chunks h = true <;> simp [he]

theorem store_chunk_is_new (C : Ctx) (s : StoreState) (d h : Bytes) :
    (store_chunk C s d h).2.1 = !Chunk_exists s.chunks h := by
  unfold store_chunk
  by_cases he : Chunk_exists s.chunks h = true <;> simp [he]

theorem store_chunk_lookup (C : Ctx) (s : StoreState) (d h h' : Bytes) :
    lookupChunk (store_chunk C s d h).1.chunks h' =
      if h' = h then
        match lookupChunk s.chunks h with
        | some row => some { row with ref_count := row.ref_count + 1 }
        | none => some ⟨d.length, 1, chunkPath h,
            (compress_for_storage C.g d C.enabled).length⟩
      else lookupChunk s.chunks h' := by
  unfold store_chunk
  cases hl : lookupChunk s.chunks h with
  | some row =>
    have he : Chunk_exists s.chunks h = true := by simp [Chunk_exists, hl]
    simp [he, lookup_increment_ref, hl]
  | none =>
    have he : Chunk_exists s.chunks h = false := by simp [Chunk_exists, hl]
    simp [he, lookup_increment_ref, hl]

theorem store_chunk_refCnt (C : Ctx) (s : StoreState) (d h h' : Bytes) :
    refCnt (store_chunk C s d h).1.chunks h' =
      refCnt s.chunks h' + if h' = h then 1 else 0 := by
  rw [refCnt, store_chunk_lookup]
  by_cases hh : h' = h
  · subst hh
    cases hl : lookupChunk s.chunks h' <;> simp [refCnt, hl]
  · simp [hh, refCnt]

theorem store_chunk_exists (C : Ctx) (s : StoreState) (d h h' : Bytes) :
    Chunk_exists (store_chunk C s d h).1.chunks h' =
      (Chunk_exists s.chunks h' || decide (h' = h)) := by
  rw [Chunk_exists, store_chunk_lookup]
  by_cases hh : h' = h
  · subst hh
    cases hl : lookupChunk s.chunks h' <;> simp [Chunk_exists, hl]
  · simp [hh, Chunk_exists]

theorem store_chunk_keys_nodup (C : Ctx) (s : StoreState) (d h : Bytes)
    (hnd : (s.chunks.map (fun e => e.1)).Nodup) :
    ((store_chunk C s d h).1.chunks.map (fun e => e.1)).Nodup := by
  unfold store_chunk
  by_cases he : Chunk_exists s.chunks h = true <;>
    simp [he, keys_increment_ref_nodup, hnd]

theorem store_chunk_paths_nodup (C : Ctx) (s : StoreState) (d h : Bytes)
    (hnd : (s.fs.map FsEntry.path).Nodup) :
    ((store_chunk C s d h).1.fs.map FsEntry.path).Nodup := by
  rw [store_chunk_fs]
  by_cases he : Chunk_exists s.chunks h = true <;>
    simp [he, paths_fsWrite_nodup, hnd]

theorem store_chunk_pos_path (C : Ctx) (s : StoreState) (d h : Bytes)
    (hpp : ∀ h0 row, lookupChunk s.chunks h0 = some row →
      0 < row.ref_count ∧ row.storage_path = chunkPath h0) :
    ∀ h0 row, lookupChunk (store_chunk C s d h).1.chunks h0 = some row →
      0 < row.ref_count ∧ row.storage_path = chunkPath h0 := by
  intro h0 row hl
  rw [store_chunk_lookup] at hl
  by_cases hh : h0 = h
  · subst hh
    rw [if_pos rfl] at hl
    cases hl0 : lookupChunk s.chunks h0 with
    | some row0 =>
      rw [hl0] at hl
      obtain ⟨hp, hq⟩ := hpp h0 row0 hl0
      cases hl
      exact ⟨by show (0:Int) < row0.ref_count + 1; omega, hq⟩
    | none =>
      rw [hl0] at hl
      cases hl
      exact ⟨by norm_num, rfl⟩
  · rw [if_neg hh] at hl
    exact hpp h0 row hl

theorem store_chunk_WFBlob (C : Ctx) (s : StoreState) (d h : Bytes)
    (hw : WFBlob C s) (hh : C.sha d = h) (hd : d ≠ []) :
    WFBlob C (store_chunk C s d h).1 := by
  intro h0 row hl
  rw [store_chunk_lookup] at hl
  rw [show (store_chunk C s d h).1.fs =
    if Chunk_exists s.chunks h then s.fs
    else fsWrite s.fs (chunkPath h) (compress_for_storage C.g d C.enabled) from
    store_chunk_fs C s d h]
  by_cases hh0 : h0 = h
  · subst hh0
    rw [if_pos rfl] at hl
    cases hl0 : lookupChunk s.chunks h0 with
    | some row0 =>
      rw [hl0] at hl
      cases hl
      have he : Chunk_exists s.chunks h0 = true := by simp [Chunk_exists, hl0]
      obtain ⟨d0, hd0, hsha0, hpath0, hblob0⟩ := hw h0 row0 hl0
      exact ⟨d0, hd0, hsha0, by simpa using hpath0, by simpa [he] using hblob0⟩
    | none =>
      rw [hl0] at hl
      cases hl
      have he : Chunk_exists s.chunks h0 = false := by simp [Chunk_exists, hl0]
      refine ⟨d, hd, hh, rfl, ?_⟩
      simp only [he, Bool.false_eq_true, ite_false, if_false]
      rw [fsLookup_fsWrite]
      simp
  · rw [if_neg hh0] at hl
    obtain ⟨d0, hd0, hsha0, hpath0, hblob0⟩ := hw h0 row hl
    refine ⟨d0, hd0, hsha0, hpath0, ?_⟩
    by_cases he : Chunk_exists s.chunks h = true
    · simpa [he] using hblob0
    · have he2 : Chunk_exists s.chunks h = false := by
        cases hb : Chunk_exists s.chunks h
        · rfl
        · exact absurd hb he
      simp only [he2, Bool.false_eq_true, ite_false, if_false]
      rw [fsLookup_fsWrite]
      rw [if_neg (fun hc => hh0 (chunkPath_inj hc))]
      exact hblob0

theorem storeChunksLoop_mappings (C : Ctx) (fh : Bytes) :
    ∀ (l : List ChunkInfo) (s : StoreState),
      (storeChunksLoop C fh s l).1.mappings = s.mappings := by
  intro l
  induction l with
  | nil => intro s; rfl
  | cons c rest ih =>
    intro s
    simp only [storeChunksLoop]
    rw [ih, store_chunk_mappings]

theorem storeChunksLoop_batch (C : Ctx) (fh : Bytes) :
    ∀ (l : List ChunkInfo) (s : StoreState),
      (storeChunksLoop C fh s l).2.2 =
        l.map (fun c => (⟨fh, c.hash, c.index, c.offset, c.size⟩ : MappingRow)) := by
  intro l
  induction l with
  | nil => intro s; rfl
  | cons c rest ih =>
    intro s
    simp only [storeChunksLoop, List.map_cons]
    rw [ih]

theorem storeChunksLoop_refCnt (C : Ctx) (fh : Bytes) :
    ∀ (l : List ChunkInfo) (s : StoreState) (h : Bytes),
      refCnt (storeChunksLoop C fh s l).1.chunks h =
        refCnt s.chunks h + (l.countP (fun c => decide (c.hash = h)) : Int) := by
  intro l
  induction l with
  | nil => intro s h; simp [storeChunksLoop]
  | cons c rest ih =>
    intro s h
    simp only [storeChunksLoop]
    rw [ih, store_chunk_refCnt, List.countP_cons]
    by_cases hc : c.hash = h
    · subst hc
      simp
      omega
    · have hch : ¬h = c.hash := fun hx => hc hx.symm
      simp [hc, hch]

theorem storeChunksLoop_exists (C : Ctx) (fh : Bytes) :
    ∀ (l : List ChunkInfo) (s : StoreState) (h : Bytes),
      Chunk_exists (storeChunksLoop C fh s l).1.chunks h =
        (Chunk_exists s.chunks h || l.any (fun c => decide (c.hash = h))) := by
  intro l
  induction l with
  | nil => intro s h; simp [storeChunksLoop]
  | cons c rest ih =>
    intro s h
    simp only [storeChunksLoop]
    rw [ih, store_chunk_exists, List.any_cons]
    by_cases hc : c.hash = h
    · subst hc
      simp [Bool.or_assoc, Bool.or_comm]
    · have hch : ¬h = c.hash := fun hx => hc hx.symm
      simp [hc, hch]

theorem storeChunksLoop_all_exist (C : Ctx) (fh : Bytes) (l : List ChunkInfo)
    (s : StoreState) :
    ∀ c ∈ l, Chunk_exists (storeChunksLoop C fh s l).1.chunks c.hash = true := by
  intro c hc
  rw [storeChunksLoop_exists]
  have : l.any (fun c0 => decide (c0.hash = c.hash)) = true :=
    List.any_eq_true.mpr ⟨c, hc, by simp⟩
  simp [this]

theorem storeChunksLoop_keys_nodup (C : Ctx) (fh : Bytes) :
    ∀ (l : List ChunkInfo) (s : StoreState),
      (s.chunks.map (fun e => e.1)).Nodup →
      ((storeChunksLoop C fh s l).1.chunks.map (fun e => e.1)).Nodup := by
  intro l
  induction l with
  | nil => intro s hnd; exact hnd
  | cons c rest ih =>
    intro s hnd
    simp only [storeChunksLoop]
    exact ih _ (store_chunk_keys_nodup C s c.data c.hash hnd)

theorem storeChunksLoop_paths_nodup (C : Ctx) (fh : Bytes) :
    ∀ (l : List ChunkInfo) (s : StoreState),
      (s.fs.map FsEntry.path).Nodup →
      ((storeChunksLoop C fh s l).1.fs.map FsEntry.path).Nodup := by
  intro l
  induction l with
  | nil => intro s hnd; exact hnd
  | cons c rest ih =>
    intro s hnd
    simp only [storeChunksLoop]
    exact ih _ (store_chunk_paths_nodup C s c.data c.hash hnd)

theorem storeChunksLoop_pos_path (C : Ctx) (fh : Bytes) :
    ∀ (l : List ChunkInfo) (s : StoreState),
      (∀ h0 row, lookupChunk s.chunks h0 = some row →
        0 < row.ref_count ∧ row.storage_path = chunkPath h0) →
      ∀ h0 row, lookupChunk (storeChunksLoop C fh s l).1.chunks h0 = some row →
        0 < row.ref_count ∧ row.storage_path = chunkPath h0 := by
  intro l
  induction l with
  | nil => intro s hpp; exact hpp
  | cons c rest ih =>
    intro s hpp
    simp only [storeChunksLoop]
    exact ih _ (store_chunk_pos_path C s c.data c.hash hpp)

theorem storeChunksLoop_WFBlob (C : Ctx) (fh : Bytes) :
    ∀ (l : List ChunkInfo) (s : StoreState),
      WFBlob C s →
      (∀ c ∈ l, c.hash = C.sha c.data ∧ c.data ≠ []) →
      WFBlob C (storeChunksLoop C fh s l).1 := by
  intro l
  induction l with
  | nil => intro s hw _; exact hw
  | cons c rest ih =>
    intro s hw hl
    simp only [storeChunksLoop]
    refine ih _ ?_ (fun c0 hc0 => hl c0 (List.mem_cons_of_mem c hc0))
    obtain ⟨hhash, hdata⟩ := hl c (List.mem_cons_self c rest)
    exact store_chunk_WFBlob C s c.data c.hash hw hhash.symm hdata

theorem storeChunksLoop_dedup (C : Ctx) (fh : Bytes) :
    ∀ (l : List ChunkInfo) (s : StoreState),
      (∀ c ∈ l, Chunk_exists s.chunks c.hash = true) →
      (storeChunksLoop C fh s l).2.1 = 0 ∧
      (storeChunksLoop C fh s l).1.fs = s.fs ∧
      ∀ h, Chunk_exists (storeChunksLoop C fh s l).1.chunks h =
        Chunk_exists s.chunks h := by
  intro l
  induction l with
  | nil => intro s _; exact ⟨rfl, rfl, fun h => rfl⟩
  | cons c rest ih =>
    intro s hex
    have hc : Chunk_exists s.chunks c.hash = true :=
      hex c (List.mem_cons_self c rest)
    have hrest : ∀ c0 ∈ rest,
        Chunk_exists (store_chunk C s c.data c.hash).1.chunks c0.hash = true := by
      intro c0 hc0
      rw [store_chunk_exists]
      simp [hex c0 (List.mem_cons_of_mem c hc0)]
    obtain ⟨h1, h2, h3⟩ := ih (store_chunk C s c.data c.hash).1 hrest
    refine ⟨?_, ?_, ?_⟩
    · simp only [storeChunksLoop, h1]
      rw [store_chunk_is_new, hc]
      rfl
    · simp only [storeChunksLoop, h2]
      rw [store_chunk_fs, hc]
      simp
    · intro h
      simp only [storeChunksLoop, h3]
      rw [store_chunk_exists]
      by_cases hh : h = c.hash
      · subst hh; simp [hc]
      · simp [hh]

/-! ## Lemmas: the read loop -/

theorem readLoop_ok (C : Ctx) (s : StoreState) :
    ∀ ms : List MappingRow,
      (∀ m ∈ ms, ∃ d, read_chunk C s m.chunk_hash = some d ∧
        d.length = m.chunk_size) →
      readLoop C s ms =
        some ((ms.map (fun m => (read_chunk C s m.chunk_hash).getD [])).flatten) := by
  intro ms
  induction ms with
  | nil => intro _; rfl
  | cons m rest ih =>
    intro hall
    obtain ⟨d, hd, hlen⟩ := hall m (List.mem_cons_self m rest)
    simp only [readLoop, hd, hlen, if_pos rfl, List.map_cons, List.flatten_cons]
    rw [ih (fun m0 hm0 => hall m0 (List.mem_cons_of_mem m hm0))]
    simp [hd]

theorem readLoop_fail (C : Ctx) (s : StoreState) :
    ∀ ms : List MappingRow,
      ¬(∀ m ∈ ms, ∃ d, read_chunk C s m.chunk_hash = some d ∧
        d.length = m.chunk_size) →
      readLoop C s ms = none := by
  intro ms
  induction ms with
  | nil => intro hno; exact absurd (fun m hm => absurd hm (List.not_mem_nil m)) hno
  | cons m rest ih =>
    intro hno
    cases hd : read_chunk C s m.chunk_hash with
    | none => simp [readLoop, hd]
    | some d =>
      by_cases hlen : d.length = m.chunk_size
      · have hrest : ¬(∀ m0 ∈ rest, ∃ d0, read_chunk C s m0.chunk_hash = some d0 ∧
            d0.length = m0.chunk_size) := by
          intro hall
          apply hno
          intro m0 hm0
          rcases List.mem_cons.mp hm0 with hm0 | hm0
          · subst hm0; exact ⟨d, hd, hlen⟩
          · exact hall m0 hm0
        simp [readLoop, hd, hlen, ih hrest]
      · simp [readLoop, hd, hlen]

/-! ## Lemmas: the delete loop -/

theorem deleteChunksLoop_master :
    ∀ (L : List Bytes) (s : StoreState),
      (s.chunks.map (fun e => e.1)).Nodup →
      (s.fs.map FsEntry.path).Nodup →
      (∀ h row, lookupChunk s.chunks h = some row →
        0 < row.ref_count ∧ row.storage_path = chunkPath h) →
      (∀ h, (L.count h : Int) ≤ refCnt s.chunks h) →
      DelFoldFacts s (deleteChunksLoop s L).1 L
        (deleteChunksLoop s L).2.1 (deleteChunksLoop s L).2.2 := by
  intro L
  induction L with
  | nil =>
    intro s hk hp hpp hge
    exact {
      mappings_eq := rfl
      refCnt_eq := fun h => by simp [deleteChunksLoop]
      lookup_zero := fun h _ => rfl
      lookup_freed := fun h row _ _ hcnt => by simp at hcnt
      lookup_kept := fun h row hl _ => by
        simp only [deleteChunksLoop, List.count_nil, Nat.cast_ofNat]
        rw [hl]
        congr 1
        cases row
        simp
      deleted_eq := by simp [deleteChunksLoop]
      total_eq := by simp [deleteChunksLoop]
      fs_untouched := fun p _ => rfl
      keys_nodup := hk
      paths_nodup := hp }
  | cons c rest ih =>
    intro s hk hp hpp hge
    have hccount : (c :: rest).count c = rest.count c + 1 := List.count_cons_self c rest
    have hcpos : 0 < (c :: rest).count c := by omega
    -- the head hash has a row, because its batch multiplicity is positive
    cases hlc : lookupChunk s.chunks c with
    | none =>
      exfalso
      have h0 : refCnt s.chunks c = 0 := refCnt_eq_zero_of_none hlc
      have := hge c
      rw [h0] at this
      omega
    | some row =>
      obtain ⟨hrpos, hrpath⟩ := hpp c row hlc
      have hrcnt : refCnt s.chunks c = row.ref_count := refCnt_eq_of_lookup hlc
      have hgec : ((c :: rest).count c : Int) ≤ row.ref_count := by
        have := hge c; omega
      by_cases hone : row.ref_count = 1
      · -- the head decrement frees the chunk: multiplicity is exactly one
        have hcnt1 : (c :: rest).count c = 1 := by
          have : ((c :: rest).count c : Int) ≤ 1 := by rw [← hone]; exact hgec
          omega
        have hcnr : rest.count c = 0 := by omega
        have hcnotin : c ∉ rest := by
          intro hmem
          exact absurd hcnr (by simpa [List.count_pos_iff_mem] using
            Nat.pos_iff_ne_zero.mp (List.count_pos_iff_mem.mpr hmem))
        have hstep : delete_chunk s c =
            ({ s with chunks := eraseChunk s.chunks c,
                      fs := fsErase s.fs row.storage_path }, true) :=
          delete_chunk_of_le_one hlc (le_of_eq hone)
        set s1 : StoreState :=
          { s with chunks := eraseChunk s.chunks c,
                   fs := fsErase s.fs row.storage_path } with hs1
        have hk1 : (s1.chunks.map (fun e => e.1)).Nodup :=
          ((eraseChunk_sublist s.chunks c).map _).nodup hk
        have hp1 : (s1.fs.map FsEntry.path).Nodup :=
          ((fsErase_sublist s.fs row.storage_path).map _).nodup hp
        have hlook1 : ∀ h, lookupChunk s1.chunks h =
            if h = c then none else lookupChunk s.chunks h := by
          intro h; exact lookupChunk_eraseChunk s.chunks c h hk
        have hpp1 : ∀ h r0, lookupChunk s1.chunks h = some r0 →
            0 < r0.ref_count ∧ r0.storage_path = chunkPath h := by
          intro h r0 hl0
          rw [hlook1] at hl0
          by_cases hh : h = c
          · rw [if_pos hh] at hl0; cases hl0
          · rw [if_neg hh] at hl0; exact hpp h r0 hl0
        have hge1 : ∀ h, (rest.count h : Int) ≤ refCnt s1.chunks h := by
          intro h
          by_cases hh : h = c
          · subst hh
            simp [refCnt, hlook1, hcnr]
          · have : (c :: rest).count h = rest.count h :=
              List.count_cons_of_ne (fun hc => hh hc) rest
            have hgeh := hge h
            rw [this] at hgeh
            have : refCnt s1.chunks h = refCnt s.chunks h := by
              simp [refCnt, hlook1, hh]
            omega
        obtain ⟨im, irc, iz, ifr, ikp, idel, itot, ifs, ik, ip⟩ :=
          ih s1 hk1 hp1 hpp1 hge1
        have hloopeq : deleteChunksLoop s (c :: rest) =
            ((deleteChunksLoop s1 rest).1,
              (deleteChunksLoop s1 rest).2.1 + 1,
              (deleteChunksLoop s1 rest).2.2) := by
          simp [deleteChunksLoop, hstep]
        rw [hloopeq]
        have hfsc : fsLookup s1.fs (chunkPath c) = none := by
          show fsLookup (fsErase s.fs row.storage_path) (chunkPath c) = none
          rw [hrpath, fsLookup_fsErase s.fs _ _ hp, if_pos rfl]
        refine {
          mappings_eq := im
          refCnt_eq := ?_
          lookup_zero := ?_
          lookup_freed := ?_
          lookup_kept := ?_
          deleted_eq := ?_
          total_eq := ?_
          fs_untouched := ?_
          keys_nodup := ik
          paths_nodup := ip }
        · intro h
          rw [irc h]
          by_cases hh : h = c
          · subst hh
            rw [hccount, hcnr, refCnt_eq_zero_of_none ((hlook1 h).trans (if_pos rfl)),
              hrcnt, hone]
            simp
          · rw [List.count_cons_of_ne (fun hc => hh hc) rest]
            have : refCnt s1.chunks h = refCnt s.chunks h := by
              simp [refCnt, hlook1, hh]
            omega
        · intro h hz
          have hh : ¬h = c := by
            intro hc; subst hc; rw [hccount] at hz; omega
          have hz2 : rest.count h = 0 := by
            rw [List.count_cons_of_ne (fun hc => hh hc) rest] at hz; exact hz
          rw [iz h hz2, hlook1, if_neg hh]
        · intro h r0 hl0 hfree hpos
          by_cases hh : h = c
          · subst hh
            rw [hl0] at hlc; cases hlc
            constructor
            · rw [iz h hcnr, hlook1, if_pos rfl]
            · rw [ifs (chunkPath h) ?_]
              · exact hfsc
              · intro h2 hh2 _ hpath
                exact hcnotin ((chunkPath_inj hpath) ▸ hh2)
          · have hcnth : (c :: rest).count h = rest.count h :=
              List.count_cons_of_ne (fun hc => hh hc) rest
            have hl1 : lookupChunk s1.chunks h = some r0 := by
              rw [hlook1, if_neg hh]; exact hl0
            rw [hcnth] at hfree hpos
            exact ifr h r0 hl1 hfree hpos
        · intro h r0 hl0 hlt
          by_cases hh : h = c
          · subst hh
            rw [hl0] at hlc; cases hlc
            rw [hccount, hcnr] at hlt
            simp at hlt
            omega
          · have hcnth : (c :: rest).count h = rest.count h :=
              List.count_cons_of_ne (fun hc => hh hc) rest
            have hl1 : lookupChunk s1.chunks h = some r0 := by
              rw [hlook1, if_neg hh]; exact hl0
            rw [hcnth] at hlt ⊢
            exact ikp h r0 hl1 hlt
        · -- deleted count: the head contributes one, the rest as before
          rw [idel]
          have hPc : refCnt s.chunks c = (((c :: rest).count c : Nat) : Int) := by
            rw [hcnt1, hrcnt, hone]; simp
          have hset : (c :: rest).toFinset = insert c rest.toFinset :=
            List.toFinset_cons
          have hnotmem : c ∉ rest.toFinset := fun hm =>
            hcnotin (List.mem_toFinset.mp hm)
          rw [hset, Finset.filter_insert, if_pos hPc]
          rw [Finset.card_insert_of_not_mem (fun hm => hnotmem (Finset.mem_of_mem_filter c hm))]
          have hcong : ∀ x ∈ rest.toFinset,
              (refCnt s1.chunks x = (rest.count x : Int)) =
                (refCnt s.chunks x = ((c :: rest).count x : Int)) := by
            intro x hx
            have hxc : ¬x = c := fun hc => hnotmem (hc ▸ hx)
            have h1 : refCnt s1.chunks x = refCnt s.chunks x := by
              simp [refCnt, hlook1, hxc]
            have h2 : (c :: rest).count x = rest.count x :=
              List.count_cons_of_ne (fun hc => hxc hc) rest
            rw [h1, h2]
          rw [Finset.filter_congr (fun x hx => by rw [hcong x hx])]
        · simp only [List.length_cons]
          omega
        · intro p hcond
          have hpc : p ≠ chunkPath c :=
            hcond c (List.mem_cons_self c rest)
              (by rw [hrcnt, hone, hcnt1]; simp)
          have hcond1 : ∀ h2 ∈ rest, refCnt s1.chunks h2 = (rest.count h2 : Int) →
              p ≠ chunkPath h2 := by
            intro h2 hh2 hfr2
            have hxc : ¬h2 = c := fun hc => hcnotin (hc ▸ hh2)
            have h1 : refCnt s1.chunks h2 = refCnt s.chunks h2 := by
              simp [refCnt, hlook1, hxc]
            have h2c : (c :: rest).count h2 = rest.count h2 :=
              List.count_cons_of_ne (fun hc => hxc hc) rest
            exact hcond h2 (List.mem_cons_of_mem c hh2) (by rw [h2c, ← h1]; exact hfr2)
          rw [ifs p hcond1]
          show fsLookup (fsErase s.fs row.storage_path) p = fsLookup s.fs p
          rw [hrpath, fsLookup_fsErase s.fs _ _ hp, if_neg hpc]
      · -- the head decrement keeps the chunk: its count stays positive
        have hgt : 1 < row.ref_count := by omega
        have hstep : delete_chunk s c =
            ({ s with chunks :=
                updateChunk s.chunks c { row with ref_count := row.ref_count - 1 } },
              false) :=
          delete_chunk_of_gt_one hlc hgt
        set row1 : ChunkRow := { row with ref_count := row.ref_count - 1 } with hrow1
        set s1 : StoreState :=
          { s with chunks := updateChunk s.chunks c row1 } with hs1
        have hk1 : (s1.chunks.map (fun e => e.1)).Nodup := by
          show ((updateChunk s.chunks c row1).map (fun e => e.1)).Nodup
          rw [keys_updateChunk]; exact hk
        have hp1 : (s1.fs.map FsEntry.path).Nodup := hp
        have hlook1 : ∀ h, lookupChunk s1.chunks h =
            if h = c then some row1 else lookupChunk s.chunks h := by
          intro h
          show lookupChunk (updateChunk s.chunks c row1) h = _
          rw [lookupChunk_updateChunk]
          by_cases hh : h = c <;> simp [hh, hlc]
        have hpp1 : ∀ h r0, lookupChunk s1.chunks h = some r0 →
            0 < r0.ref_count ∧ r0.storage_path = chunkPath h := by
          intro h r0 hl0
          rw [hlook1] at hl0
          by_cases hh : h = c
          · rw [if_pos hh] at hl0
            cases hl0
            subst hh
            exact ⟨by show (0:Int) < row.ref_count - 1; omega,
              by show row.storage_path = chunkPath h; exact hrpath⟩
          · rw [if_neg hh] at hl0; exact hpp h r0 hl0
        have hge1 : ∀ h, (rest.count h : Int) ≤ refCnt s1.chunks h := by
          intro h
          by_cases hh : h = c
          · subst hh
            have : refCnt s1.chunks h = row.ref_count - 1 := by
              simp [refCnt, hlook1]
            rw [this]
            have := hgec
            rw [hccount] at this
            push_cast at this ⊢
            omega
          · have hcnth : (c :: rest).count h = rest.count h :=
              List.count_cons_of_ne (fun hc => hh hc) rest
            have hgeh := hge h
            rw [hcnth] at hgeh
            have : refCnt s1.chunks h = refCnt s.chunks h := by
              simp [refCnt, hlook1, hh]
            omega
        obtain ⟨im, irc, iz, ifr, ikp, idel, itot, ifs, ik, ip⟩ :=
          ih s1 hk1 hp1 hpp1 hge1
        have hloopeq : deleteChunksLoop s (c :: rest) =
            ((deleteChunksLoop s1 rest).1,
              (deleteChunksLoop s1 rest).2.1,
              (deleteChunksLoop s1 rest).2.2 + 1) := by
          simp [deleteChunksLoop, hstep]
        rw [hloopeq]
        refine {
          mappings_eq := im
          refCnt_eq := ?_
          lookup_zero := ?_
          lookup_freed := ?_
          lookup_kept := ?_
          deleted_eq := ?_
          total_eq := ?_
          fs_untouched := ?_
          keys_nodup := ik
          paths_nodup := ip }
        · intro h
          rw [irc h]
          by_cases hh : h = c
          · subst hh
            have h1 : refCnt s1.chunks h = row.ref_count - 1 := by
              simp [refCnt, hlook1]
            rw [h1, hccount, hrcnt]
            push_cast
            omega
          · have : refCnt s1.chunks h = refCnt s.chunks h := by
              simp [refCnt, hlook1, hh]
            rw [this, List.count_cons_of_ne (fun hc => hh hc) rest]
        · intro h hz
          have hh : ¬h = c := by
            intro hc; subst hc; rw [hccount] at hz; omega
          have hz2 : rest.count h = 0 := by
            rw [List.count_cons_of_ne (fun hc => hh hc) rest] at hz; exact hz
          rw [iz h hz2, hlook1, if_neg hh]
        · intro h r0 hl0 hfree hpos
          by_cases hh : h = c
          · subst hh
            rw [hl0] at hlc
            cases hlc
            have hrcp : 0 < rest.count h := by
              rw [hccount] at hfree
              push_cast at hfree
              omega
            have hl1 : lookupChunk s1.chunks h = some row1 := by
              rw [hlook1, if_pos rfl]
            have hfree1 : row1.ref_count = (rest.count h : Int) := by
              show row.ref_count - 1 = (rest.count h : Int)
              rw [hccount] at hfree
              push_cast at hfree ⊢
              omega
            exact ifr h row1 hl1 hfree1 hrcp
          · have hcnth : (c :: rest).count h = rest.count h :=
              List.count_cons_of_ne (fun hc => hh hc) rest
            have hl1 : lookupChunk s1.chunks h = some r0 := by
              rw [hlook1, if_neg hh]; exact hl0
            rw [hcnth] at hfree hpos
            exact ifr h r0 hl1 hfree hpos
        · intro h r0 hl0 hlt
          by_cases hh : h = c
          · subst hh
            rw [hl0] at hlc
            cases hlc
            rcases Nat.eq_zero_or_pos (rest.count h) with hz | hpos2
            · rw [iz h hz, hlook1, if_pos rfl]
              have harith : row.ref_count - 1 =
                  row.ref_count - ((h :: rest).count h : Int) := by
                rw [hccount, hz]
                push_cast
                omega
              simp [hrow1, harith]
            · have hlt1 : (rest.count h : Int) < row1.ref_count := by
                show _ < row.ref_count - 1
                rw [hccount] at hlt
                push_cast at hlt ⊢
                omega
              have hl1 : lookupChunk s1.chunks h = some row1 := by
                rw [hlook1, if_pos rfl]
              rw [ikp h row1 hl1 hlt1]
              have harith : row.ref_count - 1 - (rest.count h : Int) =
                  row.ref_count - ((h :: rest).count h : Int) := by
                rw [hccount]
                push_cast
                omega
              simp [hrow1, harith]
          · have hcnth : (c :: rest).count h = rest.count h :=
              List.count_cons_of_ne (fun hc => hh hc) rest
            have hl1 : lookupChunk s1.chunks h = some r0 := by
              rw [hlook1, if_neg hh]; exact hl0
            rw [hcnth] at hlt ⊢
            exact ikp h r0 hl1 hlt
        · rw [idel]
          have hset : (c :: rest).toFinset = insert c rest.toFinset :=
            List.toFinset_cons
          have hcong : ∀ x ∈ rest.toFinset,
              (refCnt s1.chunks x = (rest.count x : Int)) ↔
                (refCnt s.chunks x = ((c :: rest).count x : Int)) := by
            intro x hx
            by_cases hxc : x = c
            · subst hxc
              have h1 : refCnt s1.chunks x = row.ref_count - 1 := by
                simp [refCnt, hlook1]
              have hxm : x ∈ rest := List.mem_toFinset.mp hx
              have hrcpos : 0 < rest.count x := List.count_pos_iff.mpr hxm
              rw [h1, hccount, hrcnt]
              constructor
              · intro hh1
                push_cast at hh1 ⊢
                omega
              · intro hh1
                push_cast at hh1 ⊢
                omega
            · have h1 : refCnt s1.chunks x = refCnt s.chunks x := by
                simp [refCnt, hlook1, hxc]
              have h2 : (c :: rest).count x = rest.count x :=
                List.count_cons_of_ne (fun hc => hxc hc) rest
              rw [h1, h2]
          by_cases hcm : c ∈ rest
          · have hins : insert c rest.toFinset = rest.toFinset :=
              Finset.insert_eq_self.mpr (List.mem_toFinset.mpr hcm)
            rw [hset, hins, Finset.filter_congr (fun x hx => hcong x hx)]
          · have hz : rest.count c = 0 := by
              by_contra hnz
              exact hcm (List.count_pos_iff.mp (Nat.pos_of_ne_zero hnz))
            have hPc : ¬(refCnt s.chunks c = ((c :: rest).count c : Int)) := by
              rw [hrcnt, hccount, hz]
              push_cast
              omega
            have hnm : c ∉ rest.toFinset := fun hm => hcm (List.mem_toFinset.mp hm)
            rw [hset, Finset.filter_insert, if_neg hPc,
              Finset.filter_congr (fun x hx => hcong x hx)]
        · simp only [List.length_cons]
          omega
        · intro p hcond
          have hcond1 : ∀ h2 ∈ rest, refCnt s1.chunks h2 = (rest.count h2 : Int) →
              p ≠ chunkPath h2 := by
            intro h2 hh2 hfr2
            by_cases hxc : h2 = c
            · subst hxc
              have h1 : refCnt s1.chunks h2 = row.ref_count - 1 := by
                simp [refCnt, hlook1]
              have hrcpos : 0 < rest.count h2 := List.count_pos_iff.mpr hh2
              refine hcond h2 (List.mem_cons_self h2 rest) ?_
              rw [hrcnt, hccount]
              rw [h1] at hfr2
              push_cast at hfr2 ⊢
              omega
            · have h1 : refCnt s1.chunks h2 = refCnt s.chunks h2 := by
                simp [refCnt, hlook1, hxc]
              have h2c : (c :: rest).count h2 = rest.count h2 :=
                List.count_cons_of_ne (fun hc => hxc hc) rest
              exact hcond h2 (List.mem_cons_of_mem c hh2)
                (by rw [h2c, ← h1]; exact hfr2)
          exact ifs p hcond1

/-! ## Lemmas: cleanup -/

theorem cleanupLoop_eq (tbl : ChunkTable) :
    ∀ fs : List FsEntry,
      (cleanupLoop tbl fs).1 =
        fs.filter (fun e => !(isValidHashName e.filename &&
          !Chunk_exists tbl e.filename)) ∧
      (cleanupLoop tbl fs).2 =
        fs.countP (fun e => isValidHashName e.filename &&
          !Chunk_exists tbl e.filename) := by
  intro fs
  induction fs with
  | nil => exact ⟨rfl, rfl⟩
  | cons e rest ih =>
    by_cases hq : (isValidHashName e.filename && !Chunk_exists tbl e.filename) = true
    · simp only [cleanupLoop, hq, if_pos, ite_true, List.filter_cons, List.countP_cons,
        Bool.not_true]
      exact ⟨by simp [ih.1], by simp [ih.2]⟩
    · simp only [cleanupLoop, hq, ite_false, List.filter_cons, List.countP_cons]
      refine ⟨?_, ?_⟩
      · simp [hq, ih.1]
      · simp [hq, ih.2]

/-! ## Lemmas: unconditional preservation by the delete loop -/

theorem delete_chunk_mappings (s : StoreState) (h : Bytes) :
    (delete_chunk s h).1.mappings = s.mappings := by
  unfold delete_chunk Chunk_decrement_ref
  cases hl : lookupChunk s.chunks h with
  | none => rfl
  | some row =>
    by_cases hz : max 0 (row.ref_count - 1) = 0 <;> simp [hz]

theorem delete_chunk_preserve (C0 : Ctx) (s : StoreState) (c : Bytes)
    (hk : (s.chunks.map (fun e => e.1)).Nodup)
    (hp : (s.fs.map FsEntry.path).Nodup)
    (hpp : ∀ h row, lookupChunk s.chunks h = some row →
      0 < row.ref_count ∧ row.storage_path = chunkPath h)
    (hw : WFBlob C0 s) :
    ((delete_chunk s c).1.chunks.map (fun e => e.1)).Nodup ∧
    ((delete_chunk s c).1.fs.map FsEntry.path).Nodup ∧
    (∀ h row, lookupChunk (delete_chunk s c).1.chunks h = some row →
      0 < row.ref_count ∧ row.storage_path = chunkPath h) ∧
    WFBlob C0 (delete_chunk s c).1 := by
  cases hlc : lookupChunk s.chunks c with
  | none =>
    rw [delete_chunk_of_none hlc]
    exact ⟨hk, hp, hpp, hw⟩
  | some row =>
    obtain ⟨hrpos, hrpath⟩ := hpp c row hlc
    by_cases hone : row.ref_count ≤ 1
    · rw [delete_chunk_of_le_one hlc hone]
      have hlook1 : ∀ h, lookupChunk (eraseChunk s.chunks c) h =
          if h = c then none else lookupChunk s.chunks h :=
        fun h => lookupChunk_eraseChunk s.chunks c h hk
      refine ⟨((eraseChunk_sublist s.chunks c).map _).nodup hk,
        ((fsErase_sublist s.fs row.storage_path).map _).nodup hp, ?_, ?_⟩
      · intro h r0 hl0
        rw [hlook1] at hl0
        by_cases hh : h = c
        · rw [if_pos hh] at hl0; cases hl0
        · rw [if_neg hh] at hl0; exact hpp h r0 hl0
      · intro h r0 hl0
        simp only [] at hl0
        rw [hlook1] at hl0
        by_cases hh : h = c
        · rw [if_pos hh] at hl0; cases hl0
        · rw [if_neg hh] at hl0
          obtain ⟨d0, hd0, hsha0, hpath0, hblob0⟩ := hw h r0 hl0
          refine ⟨d0, hd0, hsha0, hpath0, ?_⟩
          show fsLookup (fsErase s.fs row.storage_path) (chunkPath h) = _
          rw [hrpath, fsLookup_fsErase s.fs _ _ hp,
            if_neg (fun hc => hh (chunkPath_inj hc))]
          exact hblob0
    · have hgt : 1 < row.ref_count := by omega
      rw [delete_chunk_of_gt_one hlc hgt]
      have hlook1 : ∀ h,
          lookupChunk (updateChunk s.chunks c
            { row with ref_count := row.ref_count - 1 }) h =
          if h = c then some { row with ref_count := row.ref_count - 1 }
          else lookupChunk s.chunks h := by
        intro h
        rw [lookupChunk_updateChunk]
        by_cases hh : h = c <;> simp [hh, hlc]
      refine ⟨?_, hp, ?_, ?_⟩
      · show ((updateChunk s.chunks c _).map (fun e => e.1)).Nodup
        rw [keys_updateChunk]; exact hk
      · intro h r0 hl0
        rw [hlook1] at hl0
        by_cases hh : h = c
        · rw [if_pos hh] at hl0
          cases hl0
          subst hh
          exact ⟨by show (0:Int) < row.ref_count - 1; omega,
            by show row.storage_path = chunkPath h; exact hrpath⟩
        · rw [if_neg hh] at hl0; exact hpp h r0 hl0
      · intro h r0 hl0
        simp only [] at hl0
        rw [hlook1] at hl0
        by_cases hh : h = c
        · rw [if_pos hh] at hl0
          cases hl0
          subst hh
          obtain ⟨d0, hd0, hsha0, hpath0, hblob0⟩ := hw h row hlc
          exact ⟨d0, hd0, hsha0, by simpa using hpath0, hblob0⟩
        · rw [if_neg hh] at hl0
          exact hw h r0 hl0

theorem deleteChunksLoop_preserve (C0 : Ctx) :
    ∀ (L : List Bytes) (s : StoreState),
      (s.chunks.map (fun e => e.1)).Nodup →
      (s.fs.map FsEntry.path).Nodup →
      (∀ h row, lookupChunk s.chunks h = some row →
        0 < row.ref_count ∧ row.storage_path = chunkPath h) →
      WFBlob C0 s →
      ((deleteChunksLoop s L).1.chunks.map (fun e => e.1)).Nodup ∧
      ((deleteChunksLoop s L).1.fs.map FsEntry.path).Nodup ∧
      (∀ h row, lookupChunk (deleteChunksLoop s L).1.chunks h = some row →
        0 < row.ref_count ∧ row.storage_path = chunkPath h) ∧
      WFBlob C0 (deleteChunksLoop s L).1 ∧
      (deleteChunksLoop s L).1.mappings = s.mappings := by
  intro L
  induction L with
  | nil => intro s hk hp hpp hw; exact ⟨hk, hp, hpp, hw, rfl⟩
  | cons c rest ih =>
    intro s hk hp hpp hw
    obtain ⟨hk1, hp1, hpp1, hw1⟩ := delete_chunk_preserve C0 s c hk hp hpp hw
    obtain ⟨a1, a2, a3, a4, a5⟩ := ih (delete_chunk s c).1 hk1 hp1 hpp1 hw1
    have hsplit : deleteChunksLoop s (c :: rest) =
        (let step := delete_chunk s c
         let next := deleteChunksLoop step.1 rest
         if step.2 then (next.1, next.2.1 + 1, next.2.2)
         else (next.1, next.2.1, next.2.2 + 1)) := rfl
    rw [hsplit]
    by_cases hb : (delete_chunk s c).2 = true <;>
      simp only [hb, if_pos, ite_true, ite_false, Bool.false_eq_true] <;>
      exact ⟨a1, a2, a3, a4, a5.trans (delete_chunk_mappings s c)⟩

/-! ## Invariants of reachable states -/

/-- The stream variant changes only the reported `total_size`; the
resulting state is identical to the in-memory variant's. -/
theorem store_file_stream_fst_eq (C : Ctx) (s : StoreState) (b : Bytes) :
    (store_file_stream C s b).1 = (store_file C s b).1 := by
  unfold store_file_stream store_file
  rw [split_stream_eq_split C.sha C.chunk_size C.cs_pos b]

theorem store_file_baseInv (C : Ctx) (s : StoreState) (b : Bytes)
    (hb : BaseInv C s) : BaseInv C (store_file C s b).1 := by
  obtain ⟨hk, hp, hpp, hw⟩ := hb
  have hsplitfacts : ∀ c ∈ split_file_to_chunks C.sha C.chunk_size b,
      c.hash = C.sha c.data ∧ c.data ≠ [] := fun c hc =>
    ⟨(splitLoop_mem C.sha C.chunk_size C.cs_pos b.length b 0 0 c hc).1,
     (splitLoop_mem C.sha C.chunk_size C.cs_pos b.length b 0 0 c hc).2.1⟩
  refine ⟨?_, ?_, ?_, ?_⟩
  · exact storeChunksLoop_keys_nodup C _ _ s hk
  · exact storeChunksLoop_paths_nodup C _ _ s hp
  · exact storeChunksLoop_pos_path C _ _ s hpp
  · exact storeChunksLoop_WFBlob C _ _ s hw hsplitfacts

theorem delete_file_baseInv (C : Ctx) (s : StoreState) (fh : Bytes)
    (hb : BaseInv C s) : BaseInv C (delete_file s fh).1 := by
  obtain ⟨hk, hp, hpp, hw⟩ := hb
  obtain ⟨a1, a2, a3, a4, _⟩ := deleteChunksLoop_preserve C
    ((rowsOf s.mappings fh).map (fun m => m.chunk_hash))
    { s with mappings := s.mappings.filter (fun m => !decide (m.file_hash = fh)) }
    hk hp hpp hw
  exact ⟨a1, a2, a3, a4⟩

theorem cleanup_baseInv (C : Ctx) (s : StoreState)
    (hb : BaseInv C s) : BaseInv C (cleanup_orphaned_chunks s).1 := by
  obtain ⟨hk, hp, hpp, hw⟩ := hb
  have hfs : (cleanup_orphaned_chunks s).1.fs =
      s.fs.filter (fun e => !(isValidHashName e.filename &&
        !Chunk_exists s.chunks e.filename)) := (cleanupLoop_eq s.chunks s.fs).1
  refine ⟨hk, ?_, hpp, ?_⟩
  · rw [show (cleanup_orphaned_chunks s).1.fs.map FsEntry.path =
      (s.fs.filter (fun e => !(isValidHashName e.filename &&
        !Chunk_exists s.chunks e.filename))).map FsEntry.path from by rw [hfs]]
    exact ((List.filter_sublist s.fs).map _).nodup hp
  · intro h row hl
    obtain ⟨d0, hd0, hsha0, hpath0, hblob0⟩ := hw h row hl
    refine ⟨d0, hd0, hsha0, hpath0, ?_⟩
    show fsLookup (cleanup_orphaned_chunks s).1.fs (chunkPath h) = _
    rw [hfs, fsLookup_filter_filename
      (fun f => !(isValidHashName f && !Chunk_exists s.chunks f)) s.fs (chunkPath h)]
    have hl2 : lookupChunk s.chunks h = some row := hl
    have he : Chunk_exists s.chunks h = true := by
      simp [Chunk_exists, hl2]
    simp only [show (chunkPath h).2 = h from rfl, he, Bool.not_true,
      Bool.and_false, Bool.not_false, if_pos rfl, ite_true]
    exact hblob0

theorem reach_baseInv (C : Ctx) : ∀ s, Reach C s → BaseInv C s := by
  intro s hr
  induction hr with
  | init =>
    refine ⟨List.nodup_nil, List.nodup_nil, ?_, ?_⟩ <;> intro h row hl <;> cases hl
  | store s b _ ih => exact store_file_baseInv C s b ih
  | storeStream s b _ ih =>
    rw [store_file_stream_fst_eq]
    exact store_file_baseInv C s b ih
  | del s fh _ ih => exact delete_file_baseInv C s fh ih
  | cleanup s _ ih => exact cleanup_baseInv C s ih

theorem reachFresh_reach (C : Ctx) : ∀ s, ReachFresh C s → Reach C s := by
  intro s hr
  induction hr with
  | init => exact Reach.init
  | store s b _ _ ih => exact Reach.store s b ih
  | storeStream s b _ _ ih => exact Reach.storeStream s b ih
  | del s fh _ ih => exact Reach.del s fh ih

theorem store_file_stream_hash_eq (C : Ctx) (s : StoreState) (b : Bytes) :
    (store_file_stream C s b).2.file_hash = (store_file C s b).2.file_hash := by
  unfold store_file_stream store_file
  rw [split_stream_eq_split C.sha C.chunk_size C.cs_pos b]

theorem store_file_refInv (C : Ctx) (s : StoreState) (b : Bytes)
    (hfresh : file_exists s (store_file C s b).2.file_hash = false)
    (hri : RefInv s) : RefInv (store_file C s b).1 := by
  intro h
  have hz : rowsOf s.mappings
      (calc_file_hash C.sha (split_file_to_chunks C.sha C.chunk_size b)) = [] :=
    (file_exists_eq_false_iff s _).mp hfresh
  have hrc : refCnt (store_file C s b).1.chunks h =
      refCnt s.chunks h +
        ((split_file_to_chunks C.sha C.chunk_size b).countP
          (fun c => decide (c.hash = h)) : Int) :=
    storeChunksLoop_refCnt C _ _ s h
  have hmp : (store_file C s b).1.mappings =
      create_mapping s.mappings
        (calc_file_hash C.sha (split_file_to_chunks C.sha C.chunk_size b))
        ((split_file_to_chunks C.sha C.chunk_size b).map
          (fun c => (⟨calc_file_hash C.sha (split_file_to_chunks C.sha C.chunk_size b),
            c.hash, c.index, c.offset, c.size⟩ : MappingRow))) := by
    show create_mapping (storeChunksLoop C _ s _).1.mappings _
        (storeChunksLoop C _ s _).2.2 = _
    rw [storeChunksLoop_mappings, storeChunksLoop_batch]
  have hbatchcount :
      mapCount ((split_file_to_chunks C.sha C.chunk_size b).map
        (fun c => (⟨calc_file_hash C.sha (split_file_to_chunks C.sha C.chunk_size b),
          c.hash, c.index, c.offset, c.size⟩ : MappingRow))) h =
      (split_file_to_chunks C.sha C.chunk_size b).countP
        (fun c => decide (c.hash = h)) := by
    unfold mapCount
    rw [List.countP_map]
    rfl
  rw [hrc, hri h]
  show _ = (mapCount (store_file C s b).1.mappings h : Int)
  rw [hmp, mapCount_create_mapping_of_fresh _ hz h, hbatchcount]
  push_cast
  ring

theorem delete_file_refInv (C : Ctx) (s : StoreState) (fh : Bytes)
    (hb : BaseInv C s) (hri : RefInv s) : RefInv (delete_file s fh).1 := by
  obtain ⟨hk, hp, hpp, _⟩ := hb
  set L : List Bytes := (rowsOf s.mappings fh).map (fun m => m.chunk_hash) with hL
  set s1 : StoreState :=
    { s with mappings := s.mappings.filter (fun m => !decide (m.file_hash = fh)) }
    with hs1
  have hcount : ∀ h, L.count h =
      (rowsOf s.mappings fh).countP (fun m => decide (m.chunk_hash = h)) :=
    fun h => count_map_chunk_hash (rowsOf s.mappings fh) h
  have hge : ∀ h, (L.count h : Int) ≤ refCnt s1.chunks h := by
    intro h
    have hpart := mapCount_eq_countP_partition s.mappings fh h
    have hc : refCnt s1.chunks h = refCnt s.chunks h := rfl
    rw [hc, hri h, hcount h]
    push_cast
    omega
  obtain ⟨im, irc, _, _, _, _, _, _, _, _⟩ :=
    deleteChunksLoop_master L s1 hk hp hpp hge
  intro h
  have h1 : refCnt (delete_file s fh).1.chunks h =
      refCnt s1.chunks h - L.count h := irc h
  have h2 : (delete_file s fh).1.mappings = s1.mappings := im
  rw [h1, h2]
  have hpart := mapCount_eq_countP_partition s.mappings fh h
  have hc : refCnt s1.chunks h = refCnt s.chunks h := rfl
  have hm1 : mapCount s1.mappings h =
      mapCount (s.mappings.filter (fun m => !decide (m.file_hash = fh))) h := rfl
  rw [hc, hri h, hcount h, hm1]
  push_cast
  omega

theorem reachFresh_inv (C : Ctx) : ∀ s, ReachFresh C s → BaseInv C s ∧ RefInv s := by
  intro s hr
  induction hr with
  | init =>
    refine ⟨reach_baseInv C emptyState Reach.init, ?_⟩
    intro h
    simp [refCnt, lookupChunk, mapCount, emptyState]
  | store s b _ hfresh ih =>
    exact ⟨store_file_baseInv C s b ih.1, store_file_refInv C s b hfresh ih.2⟩
  | storeStream s b _ hfresh ih =>
    rw [store_file_stream_fst_eq]
    rw [store_file_stream_hash_eq] at hfresh
    exact ⟨store_file_baseInv C s b ih.1, store_file_refInv C s b hfresh ih.2⟩
  | del s fh _ ih =>
    exact ⟨delete_file_baseInv C s fh ih.1, delete_file_refInv C s fh ih.1 ih.2⟩

theorem store_file_refGeInv (C : Ctx) (s : StoreState) (b : Bytes)
    (hge : RefGeInv s) : RefGeInv (store_file C s b).1 := by
  intro h
  have hrc : refCnt (store_file C s b).1.chunks h =
      refCnt s.chunks h +
        ((split_file_to_chunks C.sha C.chunk_size b).countP
          (fun c => decide (c.hash = h)) : Int) :=
    storeChunksLoop_refCnt C _ _ s h
  have hmp : (store_file C s b).1.mappings =
      create_mapping s.mappings
        (calc_file_hash C.sha (split_file_to_chunks C.sha C.chunk_size b))
        ((split_file_to_chunks C.sha C.chunk_size b).map
          (fun c => (⟨calc_file_hash C.sha (split_file_to_chunks C.sha C.chunk_size b),
            c.hash, c.index, c.offset, c.size⟩ : MappingRow))) := by
    show create_mapping (storeChunksLoop C _ s _).1.mappings _
        (storeChunksLoop C _ s _).2.2 = _
    rw [storeChunksLoop_mappings, storeChunksLoop_batch]
  have hp2 : mapCount (store_file C s b).1.mappings h =
      mapCount (s.mappings.filter (fun m => !decide (m.file_hash =
        calc_file_hash C.sha (split_file_to_chunks C.sha C.chunk_size b)))) h +
      mapCount ((split_file_to_chunks C.sha C.chunk_size b).map
        (fun c => (⟨calc_file_hash C.sha (split_file_to_chunks C.sha C.chunk_size b),
          c.hash, c.index, c.offset, c.size⟩ : MappingRow))) h := by
    rw [hmp]
    exact mapCount_append _ _ h
  have hbc : mapCount ((split_file_to_chunks C.sha C.chunk_size b).map
      (fun c => (⟨calc_file_hash C.sha (split_file_to_chunks C.sha C.chunk_size b),
        c.hash, c.index, c.offset, c.size⟩ : MappingRow))) h =
      (split_file_to_chunks C.sha C.chunk_size b).countP
        (fun c => decide (c.hash = h)) := by
    unfold mapCount
    rw [List.countP_map]
    rfl
  have hpart := mapCount_eq_countP_partition s.mappings
    (calc_file_hash C.sha (split_file_to_chunks C.sha C.chunk_size b)) h
  have hg := hge h
  rw [hrc, hp2, hbc]
  push_cast
  push_cast at hg
  omega

theorem delete_file_refGeInv (C : Ctx) (s : StoreState) (fh : Bytes)
    (hb : BaseInv C s) (hge0 : RefGeInv s) : RefGeInv (delete_file s fh).1 := by
  obtain ⟨hk, hp, hpp, _⟩ := hb
  set s1 : StoreState :=
    { s with mappings := s.mappings.filter (fun m => !decide (m.file_hash = fh)) }
    with hs1
  have hcount : ∀ h, (batchHashes s fh).count h =
      (rowsOf s.mappings fh).countP (fun m => decide (m.chunk_hash = h)) :=
    fun h => count_map_chunk_hash (rowsOf s.mappings fh) h
  have hge : ∀ h, ((batchHashes s fh).count h : Int) ≤ refCnt s1.chunks h := by
    intro h
    have hpart := mapCount_eq_countP_partition s.mappings fh h
    have hc : refCnt s1.chunks h = refCnt s.chunks h := rfl
    have hg := hge0 h
    rw [hc, hcount h]
    push_cast
    push_cast at hg
    omega
  obtain ⟨im, irc, _, _, _, _, _, _, _, _⟩ :=
    deleteChunksLoop_master (batchHashes s fh) s1 hk hp hpp hge
  intro h
  have h1 : refCnt (delete_file s fh).1.chunks h =
      refCnt s1.chunks h - (batchHashes s fh).count h := irc h
  have h2 : (delete_file s fh).1.mappings = s1.mappings := im
  have hpart := mapCount_eq_countP_partition s.mappings fh h
  have hc : refCnt s1.chunks h = refCnt s.chunks h := rfl
  have hg := hge0 h
  have hm1 : mapCount s1.mappings h =
      mapCount (s.mappings.filter (fun m => !decide (m.file_hash = fh))) h := rfl
  rw [h1, h2, hc, hcount h, hm1]
  push_cast
  push_cast at hg
  omega

theorem reach_refGeInv (C : Ctx) : ∀ s, Reach C s → RefGeInv s := by
  intro s hr
  induction hr with
  | init =>
    intro h
    simp [refCnt, lookupChunk, mapCount, emptyState]
  | store s b _ ih => exact store_file_refGeInv C s b ih
  | storeStream s b _ ih =>
    rw [store_file_stream_fst_eq]
    exact store_file_refGeInv C s b ih
  | del s fh hr ih => exact delete_file_refGeInv C s fh (reach_baseInv C s hr) ih
  | cleanup s _ ih => exact ih

/-! ## The store/read round trip -/

/-- The storage codec inverts itself on a nonempty chunk, provided the
chunk is not itself a decompressible gzip stream (a gzip-prefixed chunk is
stored raw and fed to the decompressor on read; if that decompression
fails, the fail-safe returns the raw bytes). -/
theorem codec_roundtrip (g : GzipModel) (enabled : Bool) (d : Bytes)
    (hd : d ≠ [])
    (hgz : enabled = true → is_gzip d = true → g.decompr d = none) :
    decompress_from_storage g (compress_for_storage g d enabled) enabled = d := by
  by_cases hen : enabled = true
  · subst hen
    by_cases hz : is_gzip d = true
    · rw [show compress_for_storage g d true = d from by
        simp [compress_for_storage, hz]]
      simp [decompress_from_storage, hz, hd, hgz rfl hz]
    · rw [show compress_for_storage g d true = g.compr d from by
        simp [compress_for_storage, hz, hd]]
      have hmagic := g.compr_magic d
      have hnz : g.compr d ≠ [] := by
        intro hc
        rw [hc] at hmagic
        simp [is_gzip] at hmagic
      simp [decompress_from_storage, hmagic, hnz, g.decompr_compr d]
  · have hen2 : enabled = false := by
      cases enabled
      · rfl
      · exact absurd rfl hen
    subst hen2
    simp [compress_for_storage, decompress_from_storage]

theorem split_ne_nil (sha : Bytes → Bytes) (cs : Nat) (b : Bytes) (hb : b ≠ []) :
    split_file_to_chunks sha cs b ≠ [] := by
  unfold split_file_to_chunks
  cases b with
  | nil => exact absurd rfl hb
  | cons a t => simp [splitLoop]

/-- After `store_file`, reading any chunk of the stored file returns that
chunk's original bytes (digest collision-freeness plus the codec
condition on the chunk). -/
theorem read_chunk_after_store (C : Ctx) (s2 : StoreState) (c : ChunkInfo)
    (hb : BaseInv C s2)
    (hinj : Function.Injective C.sha)
    (hex : Chunk_exists s2.chunks c.hash = true)
    (hhash : c.hash = C.sha c.data)
    (hgz : C.enabled = true → is_gzip c.data = true → C.g.decompr c.data = none)
    (hd : c.data ≠ []) :
    read_chunk C s2 c.hash = some c.data := by
  obtain ⟨_, _, hpp, hw⟩ := hb
  cases hl : lookupChunk s2.chunks c.hash with
  | none => rw [Chunk_exists, hl] at hex; cases hex
  | some row =>
    obtain ⟨d0, hd0, hsha0, hpath0, hblob0⟩ := hw c.hash row hl
    have hdc : d0 = c.data := by
      apply hinj
      rw [hsha0, hhash]
    subst hdc
    simp only [read_chunk, hl, hpath0, hblob0]
    rw [codec_roundtrip C.g C.enabled c.data hd hgz]

theorem store_read_roundtrip (C : Ctx) (s : StoreState) (b : Bytes)
    (hbase : BaseInv C s) (hinj : Function.Injective C.sha) (hb : b ≠ [])
    (hgz : ∀ c ∈ split_file_to_chunks C.sha C.chunk_size b,
      C.enabled = true → is_gzip c.data = true → C.g.decompr c.data = none) :
    read_file C (store_file C s b).1 (store_file C s b).2.file_hash = some b := by
  set chunksList := split_file_to_chunks C.sha C.chunk_size b with hchunks
  set fh := calc_file_hash C.sha chunksList with hfh
  set s2 := (store_file C s b).1 with hs2
  have hb2 : BaseInv C s2 := store_file_baseInv C s b hbase
  have hbatchrows : ∀ m ∈ chunksList.map (fun c =>
      (⟨fh, c.hash, c.index, c.offset, c.size⟩ : MappingRow)), m.file_hash = fh := by
    intro m hm
    obtain ⟨c, _, hc⟩ := List.mem_map.mp hm
    rw [← hc]
  have hmappings : s2.mappings = create_mapping s.mappings fh
      (chunksList.map (fun c => ⟨fh, c.hash, c.index, c.offset, c.size⟩)) := by
    show create_mapping (storeChunksLoop C fh s chunksList).1.mappings fh
        (storeChunksLoop C fh s chunksList).2.2 = _
    rw [storeChunksLoop_mappings, storeChunksLoop_batch]
  have hrows : rowsOf s2.mappings fh =
      chunksList.map (fun c => ⟨fh, c.hash, c.index, c.offset, c.size⟩) := by
    rw [hmappings]
    exact rowsOf_create_mapping_self _ _ fh hbatchrows
  have hchain0 : chunksList.Chain' (fun a b => a.index < b.index) :=
    (splitLoop_chain C.sha C.chunk_size b.length b 0 0).1
  have hchain : (chunksList.map (fun c =>
      (⟨fh, c.hash, c.index, c.offset, c.size⟩ : MappingRow))).Chain'
        (fun a b => a.chunk_index < b.chunk_index) := by
    rw [List.chain'_map]
    exact hchain0
  have hms : get_file_chunks s2.mappings fh =
      chunksList.map (fun c => ⟨fh, c.hash, c.index, c.offset, c.size⟩) := by
    rw [get_file_chunks, hrows]
    exact sortByKey_eq_self _ _ hchain
  have hnonempty : chunksList ≠ [] := split_ne_nil C.sha C.chunk_size b hb
  have hread : ∀ c ∈ chunksList, read_chunk C s2 c.hash = some c.data := by
    intro c hc
    have hmem := splitLoop_mem C.sha C.chunk_size C.cs_pos b.length b 0 0 c hc
    exact read_chunk_after_store C s2 c hb2 hinj
      (storeChunksLoop_all_exist C fh chunksList s c hc)
      hmem.1 (hgz c hc) hmem.2.1
  have hall : ∀ m ∈ chunksList.map (fun c =>
      (⟨fh, c.hash, c.index, c.offset, c.size⟩ : MappingRow)),
      ∃ d, read_chunk C s2 m.chunk_hash = some d ∧ d.length = m.chunk_size := by
    intro m hm
    obtain ⟨c, hc, hcm⟩ := List.mem_map.mp hm
    subst hcm
    refine ⟨c.data, hread c hc, ?_⟩
    exact ((splitLoop_mem C.sha C.chunk_size C.cs_pos b.length b 0 0 c hc).2.2).symm
  have hmapnil : chunksList.map (fun c =>
      (⟨fh, c.hash, c.index, c.offset, c.size⟩ : MappingRow)) ≠ [] := by
    simpa using hnonempty
  rw [show read_file C s2 (store_file C s b).2.file_hash =
      (if get_file_chunks s2.mappings fh = [] then none
       else readLoop C s2 (get_file_chunks s2.mappings fh)) from rfl]
  rw [hms, if_neg hmapnil, readLoop_ok C s2 _ hall]
  rw [List.map_map]
  have hgetd : chunksList.map ((fun m => (read_chunk C s2 m.chunk_hash).getD []) ∘
      (fun c => (⟨fh, c.hash, c.index, c.offset, c.size⟩ : MappingRow))) =
      chunksList.map (fun c => c.data) := by
    apply List.map_congr_left
    intro c hc
    show (read_chunk C s2 c.hash).getD [] = c.data
    rw [hread c hc]
    rfl
  rw [hgetd]
  rw [show (chunksList.map (fun c => c.data)).flatten = b from
    splitLoop_flatten C.sha C.chunk_size C.cs_pos b.length b 0 0 (le_refl _)]

/-! ## Claim theorems -/

/-- C1 (counterexample): the store/read round trip fails as stated.  For
the empty buffer the store succeeds but `read_file` returns the absent
result, and for a nonempty buffer that is itself a decompressible
gzip-prefixed stream (stored raw, then wrongly decompressed on read) the
read also fails — not `some b` in either case. -/
theorem C1_roundtrip_fails_on_empty_and_gzip :
    read_file ctx0 (store_file ctx0 emptyState []).1
      (store_file ctx0 emptyState []).2.file_hash = none ∧
    ¬(read_file ctx0 (store_file ctx0 emptyState []).1
      (store_file ctx0 emptyState []).2.file_hash = some []) ∧
    read_file ctx3 (store_file ctx3 emptyState [31, 139, 0]).1
      (store_file ctx3 emptyState [31, 139, 0]).2.file_hash = none ∧
    ¬(read_file ctx3 (store_file ctx3 emptyState [31, 139, 0]).1
      (store_file ctx3 emptyState [31, 139, 0]).2.file_hash = some [31, 139, 0]) := by
  decide

/-- C1 (amended): from any reachable state, for every nonempty buffer
none of whose chunks is a decompressible gzip-prefixed stream (when
compression is enabled), and assuming the digest is collision-free,
`read_file` after `store_file` returns exactly the stored bytes. -/
theorem C1_store_read_roundtrip_amended (C : Ctx) (s : StoreState) (b : Bytes)
    (hreach : Reach C s) (hinj : Function.Injective C.sha) (hb : b ≠ [])
    (hgz : ∀ c ∈ split_file_to_chunks C.sha C.chunk_size b,
      C.enabled = true → is_gzip c.data = true → C.g.decompr c.data = none) :
    read_file C (store_file C s b).1 (store_file C s b).2.file_hash = some b :=
  store_read_roundtrip C s b (reach_baseInv C s hreach) hinj hb hgz

/-- C1 (witness): the amended round trip at a concrete input. -/
theorem C1_store_read_roundtrip_amended_witness :
    read_file ctx0 (store_file ctx0 emptyState [5]).1
      (store_file ctx0 emptyState [5]).2.file_hash = some [5] :=
  C1_store_read_roundtrip_amended ctx0 emptyState [5] Reach.init
    (fun _ _ hab => hab) (by decide) (by decide)

/-- C2 (counterexample): storing the same content twice is a reachable
operation sequence after which the stored chunk's `ref_count` is 2 while
only one mapping row references it — the invariant as stated fails. -/
theorem C2_double_store_refcount_mismatch :
    Reach ctx0 (store_file ctx0 (store_file ctx0 emptyState [7]).1 [7]).1 ∧
    ¬(∀ h row, lookupChunk
        (store_file ctx0 (store_file ctx0 emptyState [7]).1 [7]).1.chunks h =
          some row →
        row.ref_count = (mapCount
          (store_file ctx0 (store_file ctx0 emptyState [7]).1 [7]).1.mappings h : Int)) := by
  refine ⟨Reach.store _ _ (Reach.store _ _ Reach.init), ?_⟩
  intro hall
  have h1 := hall [7] ⟨1, 2, ([7], [7]), 4⟩ (by decide)
  rw [show mapCount
      (store_file ctx0 (store_file ctx0 emptyState [7]).1 [7]).1.mappings [7] = 1
    from by decide] at h1
  exact absurd h1 (by decide)

/-- C2 (amended): the invariant holds for every state reachable by
sequences of `store_file`, `store_file_stream` and `delete_file` in which
no store call re-stores a file hash that already has a mapping batch:
every Chunk row's `ref_count` equals the number of mapping rows (across
all file hashes, one per occurrence) referencing it. -/
theorem C2_refcount_matches_mappings_fresh (C : Ctx) (s : StoreState)
    (hr : ReachFresh C s) :
    ∀ h row, lookupChunk s.chunks h = some row →
      row.ref_count = (mapCount s.mappings h : Int) := by
  intro h row hl
  have hx := (reachFresh_inv C s hr).2 h
  rwa [refCnt_eq_of_lookup hl] at hx

/-- C2 (witness): the amended invariant at a concrete reachable state,
instantiated at the stored chunk's row. -/
theorem C2_refcount_matches_mappings_fresh_witness :
    ((⟨1, 1, ([7], [7]), 4⟩ : ChunkRow)).ref_count =
      (mapCount (store_file ctx0 emptyState [7]).1.mappings [7] : Int) :=
  C2_refcount_matches_mappings_fresh ctx0 _
    (ReachFresh.store _ _ ReachFresh.init (by decide)) [7]
    ⟨1, 1, ([7], [7]), 4⟩ (by decide)

/-- C3: for every digest function, every positive chunk size and every
input, the stream chunker produces exactly the same chunk list — data,
hash, index, offset and size per entry — as the in-memory chunker. -/
theorem C3_stream_chunks_equal_memory_chunks (sha : Bytes → Bytes) (cs : Nat)
    (hcs : 0 < cs) (b : Bytes) :
    split_file_stream_to_chunks sha cs b = split_file_to_chunks sha cs b :=
  split_stream_eq_split sha cs hcs b

/-- C3 (witness): the chunker equivalence at a concrete input. -/
theorem C3_stream_chunks_equal_memory_chunks_witness :
    0 < 2 ∧ split_file_stream_to_chunks shaId 2 [1, 2, 3, 4, 5] =
      split_file_to_chunks shaId 2 [1, 2, 3, 4, 5] :=
  ⟨by decide, C3_stream_chunks_equal_memory_chunks shaId 2 (by decide) [1, 2, 3, 4, 5]⟩

/-- C4: in every reachable state (any sequence of stores, stream stores,
deletes and cleanups, re-stores included), `delete_file` removes the file
hash's mapping batch, decrements each referenced chunk once per
occurrence in the batch, removes the Chunk row and the physical blob of
every chunk whose count reaches zero, keeps the others with their count
reduced by their multiplicity, reports as `deleted_chunks` exactly the
occurrences that drove a count to zero (one per fully freed chunk) and as
`remaining_chunks` the rest of the batch. -/
theorem C4_delete_file_spec (C : Ctx) (s : StoreState) (fh : Bytes)
    (hr : Reach C s) :
    rowsOf (delete_file s fh).1.mappings fh = [] ∧
    (∀ h, refCnt (delete_file s fh).1.chunks h =
      refCnt s.chunks h - (batchHashes s fh).count h) ∧
    (∀ h row, lookupChunk s.chunks h = some row →
      row.ref_count = ((batchHashes s fh).count h : Int) →
      0 < (batchHashes s fh).count h →
      lookupChunk (delete_file s fh).1.chunks h = none ∧
      fsLookup (delete_file s fh).1.fs (chunkPath h) = none) ∧
    (∀ h row, lookupChunk s.chunks h = some row →
      ((batchHashes s fh).count h : Int) < row.ref_count →
      lookupChunk (delete_file s fh).1.chunks h =
        some { row with ref_count := row.ref_count - (batchHashes s fh).count h }) ∧
    (delete_file s fh).2.1 = ((batchHashes s fh).toFinset.filter
      (fun h => refCnt s.chunks h = ((batchHashes s fh).count h : Int))).card ∧
    (delete_file s fh).2.1 + (delete_file s fh).2.2 = (batchHashes s fh).length := by
  obtain ⟨hk, hp, hpp, hw⟩ := reach_baseInv C s hr
  have hri := reach_refGeInv C s hr
  set s1 : StoreState :=
    { s with mappings := s.mappings.filter (fun m => !decide (m.file_hash = fh)) }
    with hs1
  have hge : ∀ h, ((batchHashes s fh).count h : Int) ≤ refCnt s1.chunks h := by
    intro h
    have hpart := mapCount_eq_countP_partition s.mappings fh h
    have hc : refCnt s1.chunks h = refCnt s.chunks h := rfl
    have hcnt : (batchHashes s fh).count h =
        (rowsOf s.mappings fh).countP (fun m => decide (m.chunk_hash = h)) :=
      count_map_chunk_hash (rowsOf s.mappings fh) h
    have hg := hri h
    rw [hc, hcnt]
    push_cast
    push_cast at hg
    omega
  obtain ⟨im, irc, iz, ifr, ikp, idel, itot, ifs, ik, ip⟩ :=
    deleteChunksLoop_master (batchHashes s fh) s1 hk hp hpp hge
  refine ⟨?_, irc, ifr, ikp, idel, itot⟩
  have hm : (delete_file s fh).1.mappings = s1.mappings := im
  rw [hm]
  exact rowsOf_filter_ne s.mappings fh

/-- C4 (witness): deletion accounting at a concrete stored state. -/
theorem C4_delete_file_spec_witness :
    rowsOf (delete_file (store_file ctx0 emptyState [7]).1 [7]).1.mappings [7] = [] ∧
    (∀ h, refCnt (delete_file (store_file ctx0 emptyState [7]).1 [7]).1.chunks h =
      refCnt (store_file ctx0 emptyState [7]).1.chunks h -
        (batchHashes (store_file ctx0 emptyState [7]).1 [7]).count h) ∧
    (∀ h row, lookupChunk (store_file ctx0 emptyState [7]).1.chunks h = some row →
      row.ref_count = ((batchHashes (store_file ctx0 emptyState [7]).1 [7]).count h : Int) →
      0 < (batchHashes (store_file ctx0 emptyState [7]).1 [7]).count h →
      lookupChunk (delete_file (store_file ctx0 emptyState [7]).1 [7]).1.chunks h = none ∧
      fsLookup (delete_file (store_file ctx0 emptyState [7]).1 [7]).1.fs (chunkPath h) = none) ∧
    (∀ h row, lookupChunk (store_file ctx0 emptyState [7]).1.chunks h = some row →
      ((batchHashes (store_file ctx0 emptyState [7]).1 [7]).count h : Int) < row.ref_count →
      lookupChunk (delete_file (store_file ctx0 emptyState [7]).1 [7]).1.chunks h =
        some { row with ref_count := row.ref_count -
          (batchHashes (store_file ctx0 emptyState [7]).1 [7]).count h }) ∧
    (delete_file (store_file ctx0 emptyState [7]).1 [7]).2.1 =
      ((batchHashes (store_file ctx0 emptyState [7]).1 [7]).toFinset.filter
        (fun h => refCnt (store_file ctx0 emptyState [7]).1.chunks h =
          ((batchHashes (store_file ctx0 emptyState [7]).1 [7]).count h : Int))).card ∧
    (delete_file (store_file ctx0 emptyState [7]).1 [7]).2.1 +
      (delete_file (store_file ctx0 emptyState [7]).1 [7]).2.2 =
      (batchHashes (store_file ctx0 emptyState [7]).1 [7]).length :=
  C4_delete_file_spec ctx0 _ [7] (Reach.store _ _ Reach.init)

/-- C5: storing the same buffer twice in a row yields the same file hash
both times, the second call creates no new chunks (its `new_chunks` is 0,
hence at most the first call's), adds no Chunk row, and writes no
physical blob. -/
theorem C5_store_twice_dedups (C : Ctx) (s : StoreState) (b : Bytes) :
    (store_file C (store_file C s b).1 b).2.file_hash =
      (store_file C s b).2.file_hash ∧
    (store_file C (store_file C s b).1 b).2.new_chunks = 0 ∧
    (store_file C (store_file C s b).1 b).2.new_chunks ≤
      (store_file C s b).2.new_chunks ∧
    (∀ h, Chunk_exists (store_file C (store_file C s b).1 b).1.chunks h =
      Chunk_exists (store_file C s b).1.chunks h) ∧
    (store_file C (store_file C s b).1 b).1.fs = (store_file C s b).1.fs := by
  set s1 := (store_file C s b).1 with hs1
  have hex : ∀ c ∈ split_file_to_chunks C.sha C.chunk_size b,
      Chunk_exists s1.chunks c.hash = true := by
    intro c hc
    exact storeChunksLoop_all_exist C
      (calc_file_hash C.sha (split_file_to_chunks C.sha C.chunk_size b))
      (split_file_to_chunks C.sha C.chunk_size b) s c hc
  obtain ⟨h1, h2, h3⟩ := storeChunksLoop_dedup C
    (calc_file_hash C.sha (split_file_to_chunks C.sha C.chunk_size b))
    (split_file_to_chunks C.sha C.chunk_size b) s1 hex
  refine ⟨rfl, h1, ?_, h3, h2⟩
  have hz : (store_file C s1 b).2.new_chunks = 0 := h1
  rw [hz]
  exact Nat.zero_le _

/-- C6: when a file hash has a non-empty mapping batch, `read_file`
returns the concatenation of the chunks in `chunk_index` order when every
chunk reads back with exactly its recorded size, and returns the absent
result — never a shorter or partial buffer — as soon as any chunk is
missing, unreadable, or has a decompressed length different from the
recorded `chunk_size`. -/
theorem C6_read_file_all_or_nothing (C : Ctx) (s : StoreState) (fh : Bytes)
    (hne : get_file_chunks s.mappings fh ≠ []) :
    ((∀ m ∈ get_file_chunks s.mappings fh,
        ∃ d, read_chunk C s m.chunk_hash = some d ∧ d.length = m.chunk_size) →
      read_file C s fh = some (((get_file_chunks s.mappings fh).map
        (fun m => (read_chunk C s m.chunk_hash).getD [])).flatten)) ∧
    (¬(∀ m ∈ get_file_chunks s.mappings fh,
        ∃ d, read_chunk C s m.chunk_hash = some d ∧ d.length = m.chunk_size) →
      read_file C s fh = none) := by
  constructor
  · intro hall
    rw [show read_file C s fh =
        (if get_file_chunks s.mappings fh = [] then none
         else readLoop C s (get_file_chunks s.mappings fh)) from rfl, if_neg hne]
    exact readLoop_ok C s _ hall
  · intro hno
    rw [show read_file C s fh =
        (if get_file_chunks s.mappings fh = [] then none
         else readLoop C s (get_file_chunks s.mappings fh)) from rfl, if_neg hne]
    exact readLoop_fail C s _ hno

/-- C6 (witness): the all-or-nothing read at a concrete stored state. -/
theorem C6_read_file_all_or_nothing_witness :
    ((∀ m ∈ get_file_chunks (store_file ctx0 emptyState [5]).1.mappings [5],
        ∃ d, read_chunk ctx0 (store_file ctx0 emptyState [5]).1 m.chunk_hash = some d ∧
          d.length = m.chunk_size) →
      read_file ctx0 (store_file ctx0 emptyState [5]).1 [5] =
        some (((get_file_chunks (store_file ctx0 emptyState [5]).1.mappings [5]).map
          (fun m => (read_chunk ctx0 (store_file ctx0 emptyState [5]).1 m.chunk_hash).getD [])).flatten)) ∧
    (¬(∀ m ∈ get_file_chunks (store_file ctx0 emptyState [5]).1.mappings [5],
        ∃ d, read_chunk ctx0 (store_file ctx0 emptyState [5]).1 m.chunk_hash = some d ∧
          d.length = m.chunk_size) →
      read_file ctx0 (store_file ctx0 emptyState [5]).1 [5] = none) :=
  C6_read_file_all_or_nothing ctx0 (store_file ctx0 emptyState [5]).1 [5] (by decide)

/-- C7: in every reachable state every Chunk row has a positive
`ref_count` (a row exists only while its count is positive); a decrement
never yields a negative count — its result is clamped at zero, and a
zero result means the row is gone from the resulting table at that
moment; and `delete_chunk` on a chunk whose decrement reaches (or clamps
at) zero removes, in that same step, the Chunk row and the physical
payload at the chunk's storage path, reporting the deletion. -/
theorem C7_refcounts_positive_and_clamped (C : Ctx) (s : StoreState)
    (hr : Reach C s) :
    (∀ h row, lookupChunk s.chunks h = some row → 0 < row.ref_count) ∧
    (∀ h rc op, (Chunk_decrement_ref s.chunks h).2 = some (rc, op) →
      0 ≤ rc ∧ (rc = 0 → lookupChunk (Chunk_decrement_ref s.chunks h).1 h = none)) ∧
    (∀ h row, lookupChunk s.chunks h = some row → row.ref_count ≤ 1 →
      (delete_chunk s h).2 = true ∧
      lookupChunk (delete_chunk s h).1.chunks h = none ∧
      fsLookup (delete_chunk s h).1.fs (chunkPath h) = none) := by
  obtain ⟨hk, hpf, hpp, _⟩ := reach_baseInv C s hr
  refine ⟨fun h row hl => (hpp h row hl).1, ?_, ?_⟩
  case refine_2 =>
    intro h row hl hle
    have hpath := (hpp h row hl).2
    rw [delete_chunk_of_le_one hl hle]
    refine ⟨rfl, ?_, ?_⟩
    · show lookupChunk (eraseChunk s.chunks h) h = none
      rw [lookupChunk_eraseChunk s.chunks h h hk, if_pos rfl]
    · show fsLookup (fsErase s.fs row.storage_path) (chunkPath h) = none
      rw [hpath, fsLookup_fsErase s.fs _ _ hpf, if_pos rfl]
  intro h rc op hres
  cases hl : lookupChunk s.chunks h with
  | none =>
    rw [decrement_ref_of_none hl] at hres
    cases hres
  | some row =>
    by_cases hone : row.ref_count ≤ 1
    · rw [show (Chunk_decrement_ref s.chunks h).2 =
          some (0, some row.storage_path) from by
        rw [decrement_ref_of_le_one hl hone]] at hres
      cases hres
      refine ⟨le_refl 0, fun _ => ?_⟩
      rw [show (Chunk_decrement_ref s.chunks h).1 = eraseChunk s.chunks h from by
        rw [decrement_ref_of_le_one hl hone]]
      rw [lookupChunk_eraseChunk s.chunks h h hk, if_pos rfl]
    · have hgt : 1 < row.ref_count := by omega
      rw [show (Chunk_decrement_ref s.chunks h).2 =
          some (row.ref_count - 1, none) from by
        rw [decrement_ref_of_gt_one hl hgt]] at hres
      cases hres
      exact ⟨by omega, fun hz => absurd hz (by omega)⟩

/-- C7 (witness): positivity, clamping and payload removal at a concrete
reachable state. -/
theorem C7_refcounts_positive_and_clamped_witness :
    (∀ h row, lookupChunk (store_file ctx0 emptyState [7]).1.chunks h = some row →
      0 < row.ref_count) ∧
    (∀ h rc op,
      (Chunk_decrement_ref (store_file ctx0 emptyState [7]).1.chunks h).2 =
        some (rc, op) →
      0 ≤ rc ∧ (rc = 0 →
        lookupChunk (Chunk_decrement_ref
          (store_file ctx0 emptyState [7]).1.chunks h).1 h = none)) ∧
    (∀ h row, lookupChunk (store_file ctx0 emptyState [7]).1.chunks h = some row →
      row.ref_count ≤ 1 →
      (delete_chunk (store_file ctx0 emptyState [7]).1 h).2 = true ∧
      lookupChunk (delete_chunk (store_file ctx0 emptyState [7]).1 h).1.chunks h =
        none ∧
      fsLookup (delete_chunk (store_file ctx0 emptyState [7]).1 h).1.fs
        (chunkPath h) = none) :=
  C7_refcounts_positive_and_clamped ctx0 _ (Reach.store _ _ Reach.init)

theorem filter_not_length_add_countP (p : FsEntry → Bool) (l : List FsEntry) :
    (l.filter (fun e => !p e)).length + l.countP p = l.length := by
  induction l with
  | nil => rfl
  | cons e rest ih =>
    by_cases hp : p e = true <;>
      simp [List.filter_cons, List.countP_cons, hp] <;> omega

/-- C8 (counterexample): a planted orphan file named with 64 uppercase
letters is not a lowercase-hex hash name, yet `cleanup_orphaned_chunks`
deletes it and counts it — the code folds case before its hex test, so
"syntactically valid" is case-insensitive, not lowercase-only. -/
theorem C8_uppercase_orphan_deleted :
    isLowercaseHexName (List.replicate 64 65) = false ∧
    (cleanup_orphaned_chunks
      ⟨[], [], [⟨[97, 97], List.replicate 64 65, [1, 2, 3]⟩]⟩).2 = 1 ∧
    (cleanup_orphaned_chunks
      ⟨[], [], [⟨[97, 97], List.replicate 64 65, [1, 2, 3]⟩]⟩).1.fs = [] := by
  decide

/-- C8 (amended): `cleanup_orphaned_chunks` touches neither metadata
table; it deletes exactly the files in the chunk tree whose name passes
the code's case-insensitive hash-shape test (64 characters that are hex
digits after ASCII lowercasing) and have no Chunk row, keeps every other
file, and returns the number of files removed. -/
theorem C8_cleanup_spec (s : StoreState) :
    (cleanup_orphaned_chunks s).1.chunks = s.chunks ∧
    (cleanup_orphaned_chunks s).1.mappings = s.mappings ∧
    (cleanup_orphaned_chunks s).1.fs = s.fs.filter
      (fun e => !(isValidHashName e.filename && !Chunk_exists s.chunks e.filename)) ∧
    (cleanup_orphaned_chunks s).2 = s.fs.countP
      (fun e => isValidHashName e.filename && !Chunk_exists s.chunks e.filename) ∧
    (cleanup_orphaned_chunks s).1.fs.length + (cleanup_orphaned_chunks s).2 =
      s.fs.length := by
  obtain ⟨h1, h2⟩ := cleanupLoop_eq s.chunks s.fs
  refine ⟨rfl, rfl, h1, h2, ?_⟩
  show (cleanupLoop s.chunks s.fs).1.length + (cleanupLoop s.chunks s.fs).2 =
    s.fs.length
  rw [h1, h2]
  exact filter_not_length_add_countP
    (fun e => isValidHashName e.filename && !Chunk_exists s.chunks e.filename) s.fs

/-- C9: storing the empty buffer succeeds with zero chunks, zero new
chunks, zero total size and the digest of the empty chunk-hash sequence
as file hash, yet afterwards `file_exists` of that hash is false and
`read_file` of it is absent: a stored empty file is indistinguishable
from a never-stored one at the read interface. -/
theorem C9_empty_file_store_invisible (C : Ctx) (s : StoreState) :
    (store_file C s []).2.file_hash = C.sha [] ∧
    (store_file C s []).2.total_size = 0 ∧
    (store_file C s []).2.chunk_count = 0 ∧
    (store_file C s []).2.new_chunks = 0 ∧
    file_exists (store_file C s []).1 (store_file C s []).2.file_hash = false ∧
    read_file C (store_file C s []).1 (store_file C s []).2.file_hash = none := by
  have hrows : rowsOf (store_file C s []).1.mappings (C.sha []) = [] := by
    rw [show (store_file C s []).1.mappings =
        s.mappings.filter (fun m => !decide (m.file_hash = C.sha [])) ++ [] from rfl]
    rw [List.append_nil]
    exact rowsOf_filter_ne s.mappings (C.sha [])
  refine ⟨rfl, rfl, rfl, rfl, ?_, ?_⟩
  · exact (file_exists_eq_false_iff (store_file C s []).1 (C.sha [])).mpr hrows
  · rw [show read_file C (store_file C s []).1 (store_file C s []).2.file_hash =
        (if get_file_chunks (store_file C s []).1.mappings (C.sha []) = [] then none
         else readLoop C (store_file C s []).1
           (get_file_chunks (store_file C s []).1.mappings (C.sha []))) from rfl]
    rw [show get_file_chunks (store_file C s []).1.mappings (C.sha []) =
        sortByKey (fun m => m.chunk_index)
          (rowsOf (store_file C s []).1.mappings (C.sha [])) from rfl, hrows]
    rfl

/-- C10: the storage codec round-trips every buffer that does not begin
with the gzip magic, for either compression setting; a gzip-prefixed
buffer passes compression unchanged, and decompression (when enabled)
feeds it to the gzip decompressor — falling back to the raw bytes only
when that decompression fails — so the round trip is guaranteed only
under the non-gzip-prefix precondition. -/
theorem C10_codec_roundtrip_claim (g : GzipModel) (d : Bytes) (enabled : Bool) :
    (is_gzip d = false →
      decompress_from_storage g (compress_for_storage g d enabled) enabled = d) ∧
    (is_gzip d = true →
      compress_for_storage g d enabled = d ∧
      decompress_from_storage g d true =
        (match g.decompr d with
         | some out => out
         | none => d)) := by
  constructor
  · intro hnz
    by_cases hd : d = []
    · subst hd
      simp [compress_for_storage, decompress_from_storage]
    · exact codec_roundtrip g enabled d hd
        (fun _ hz => absurd hz (by simp [hnz]))
  · intro hz
    have hd : d ≠ [] := by
      intro hc
      rw [hc] at hz
      simp [is_gzip] at hz
    refine ⟨by simp [compress_for_storage, hz], ?_⟩
    simp [decompress_from_storage, hz, hd]

/-- C10 (witness): the codec claims at concrete inputs. -/
theorem C10_codec_roundtrip_claim_witness :
    is_gzip [5, 6] = false ∧
    decompress_from_storage gzToy (compress_for_storage gzToy [5, 6] true) true =
      [5, 6] ∧
    is_gzip [31, 139, 9] = true ∧
    compress_for_storage gzToy [31, 139, 9] true = [31, 139, 9] :=
  ⟨by decide, (C10_codec_roundtrip_claim gzToy [5, 6] true).1 (by decide),
   by decide, ((C10_codec_roundtrip_claim gzToy [31, 139, 9] true).2 (by decide)).1⟩
